import Mathlib

set_option linter.unusedVariables false

namespace Cryptarithm

/-- A decidable equality on characters that compares code points as natural
numbers directly; registered so that all later decidable instances reduce
cheaply inside the kernel. -/
instance fastCharDE : DecidableEq Char := fun a b =>
  if h : a.toNat = b.toNat then
    isTrue (Char.ext (by
      cases hv : a.val; cases hv2 : b.val
      simp only [Char.toNat, hv, hv2, UInt32.toNat] at h
      rw [hv, hv2] at *
      congr 1
      exact BitVec.eq_of_toNat_eq h))
  else isFalse (fun he => h (he ▸ rfl))

/-- CSP variables of the solver: one variable per distinct letter, and one
carry variable per addition column (the Python code uses the strings C0, C1,
and so on for the carries). -/
inductive Var where
  | letter (c : Char)
  | carry (i : Nat)
deriving DecidableEq, Repr

/-- A partial assignment, modelling a Python dict from variable to digit
(insertion ordered, keys unique). -/
abbrev Assign := List (Var × Nat)

/-- The domain map, modelling a Python dict from variable to a set of digits.
Sets are modelled as sorted duplicate-free lists; every place the Python code
consumes a domain it first sorts it, so the sorted list is the canonical
rendering of the set. -/
abbrev Doms := List (Var × List Nat)

/-- Dict lookup on an association list. -/
def alookup {α β : Type} [DecidableEq α] : List (α × β) → α → Option β
  | [], _ => none
  | (k, v) :: t, a => if k = a then some v else alookup t a

/-- Dict update on an association list: replace the value in place if the key
is present, append otherwise (Python dict assignment semantics). -/
def aset {α β : Type} [DecidableEq α] : List (α × β) → α → β → List (α × β)
  | [], k, v => [(k, v)]
  | (k0, v0) :: t, k, v => if k0 = k then (k0, v) :: t else (k0, v0) :: aset t k v

/-- Dict deletion on an association list (Python del). -/
def aerase {α β : Type} [DecidableEq α] : List (α × β) → α → List (α × β)
  | [], _ => []
  | (k0, v0) :: t, k => if k0 = k then t else (k0, v0) :: aerase t k

/-- Insertion into a sorted list, used to render Python sorted(...) calls on
accumulated removal sets. -/
def insertSorted (x : Nat) : List Nat → List Nat
  | [] => [x]
  | y :: t => if x ≤ y then x :: y :: t else y :: insertSorted x t

/-- Sorting a list of digits, as Python sorted(list(...)). -/
def sortNat (l : List Nat) : List Nat := l.foldr insertSorted []

/-- Trace events, mirroring the tagged dicts appended by the Python solver.
Fields that some emissions omit (result, reason, steps of END) are Options so
that presence or absence of a field is visible in the model. -/
inductive Ev where
  | start (words : List (List Char)) (result : List Char) (useAc3 : Bool)
  | curAssign (a : Assign)
  | curDomains (d : Doms)
  | assignEv (v : Var) (val : Nat)
  | pruneEv (v : Var) (removed : List Nat)
  | unassignEv (v : Var)
  | endEv (res : Option (List (Char × Nat))) (reason : Option String) (steps : Option Nat)
  | doneEv (note : String)
deriving DecidableEq, Repr

/-- The note string of every SOLVER_DONE event. -/
def doneNote : String := "Solver finished writing full trace."

/-- The reason string of the inconsistent-preset END event. -/
def reasonPreset : String := "inconsistent BUS/preset"

/-- The reason string of the initial-propagation-failure END event. -/
def reasonAc3Start : String := "AC3 inconsistency at start"

/-- The reason string of the unsatisfiable END event. -/
def reasonNoSolution : String := "no solution found"

/-- The reason string of the successful END event. -/
def reasonSolved : String := "solution found"

/-- The per-solve constants derived from the normalized inputs. -/
structure Ctx where
  words : List (List Char)
  result : List Char
  letters : List Char
  maxLen : Nat
  maxCarry : Nat
  useAc3 : Bool
deriving Repr

/-- Distinct letters in order of first occurrence across all words. -/
def lettersOf (allWords : List (List Char)) : List Char :=
  allWords.foldl (fun acc w => w.foldl (fun acc ch => if ch ∈ acc then acc else acc ++ [ch]) acc) []

/-- Longest word length among addends and result. -/
def maxLenOf (allWords : List (List Char)) : Nat :=
  allWords.foldl (fun m w => max m w.length) 0

/-- The carry variables C0 .. C(maxLen-1). -/
def Ctx.carryVars (c : Ctx) : List Var := (List.range c.maxLen).map Var.carry

/-- The variable pool: letters first, then carries. -/
def Ctx.variables (c : Ctx) : List Var := c.letters.map Var.letter ++ c.carryVars

/-- The all-different neighbor set of a variable: every other letter for a
letter variable, empty for carries (the Python neighbors defaultdict). -/
def Ctx.neighbors (c : Ctx) (v : Var) : List Char :=
  match v with
  | Var.letter ch => if ch ∈ c.letters then c.letters.filter (fun x => x ≠ ch) else []
  | Var.carry _ => []

/-- Whether a variable is one of the letter variables (the Python test
var in letters). -/
def Ctx.isLetterVar (c : Ctx) (v : Var) : Bool :=
  match v with
  | Var.letter ch => ch ∈ c.letters
  | Var.carry _ => false

/-- First characters of words longer than one letter (leading-zero rule). -/
def Ctx.leadingLetters (c : Ctx) : List Char :=
  (c.words ++ [c.result]).filterMap (fun w => if w.length > 1 then w.head? else none)

/-- Initial domains: 1..9 for leading letters, 0..9 for other letters,
0..numAddends for carries. -/
def Ctx.initialDomains (c : Ctx) : Doms :=
  c.letters.map (fun ch =>
    (Var.letter ch,
      if ch ∈ c.leadingLetters then (List.range 9).map (fun i => i + 1) else List.range 10))
  ++ c.carryVars.map (fun v => (v, List.range (c.maxCarry + 1)))

/-- A word reversed and padded with none up to maxLen, as in the Python
rev_words construction. -/
def revWord (maxLen : Nat) (w : List Char) : List (Option Char) :=
  w.reverse.map some ++ List.replicate (maxLen - w.length) none

/-- The operand letter of each addend at a given column (none if the addend
is shorter). -/
def Ctx.colOps (c : Ctx) (col : Nat) : List (Option Char) :=
  c.words.map (fun w => (revWord c.maxLen w).getD col none)

/-- The result letter at a given column (none if the result is shorter). -/
def Ctx.colRes (c : Ctx) (col : Nat) : Option Char :=
  (revWord c.maxLen c.result).getD col none

/-- The involved variables of a column, in the order the Python code builds
them: present operand letters, then the result letter, then carry-in (for
columns past the first), then carry-out. -/
def Ctx.colInvolved (c : Ctx) (col : Nat) : List Var :=
  (c.colOps col).filterMap (fun o => o.map Var.letter)
  ++ (match c.colRes col with | some ch => [Var.letter ch] | none => [])
  ++ (if col ≥ 1 then [Var.carry (col - 1)] else [])
  ++ [Var.carry col]

/-- The candidate values of a variable inside a column check: the singleton
of its assigned value if assigned, else its current domain sorted. -/
def domList (a : Assign) (d : Doms) (v : Var) : List Nat :=
  match alookup a v with
  | some x => [x]
  | none => (alookup d v).getD []

/-- The per-tuple mapping dict(zip(keys, vals)); a duplicate key keeps its
first position but takes the later value, as in Python. -/
def buildMapping (keys : List Var) (vals : List Nat) : List (Var × Nat) :=
  (keys.zip vals).foldl (fun m kv => aset m kv.1 kv.2) []

/-- The all-different scan over the entries of a column tuple mapping,
tracking a seen dict from digit to the letter that used it. -/
def allDiffScan (c : Ctx) : List (Var × Nat) → List (Nat × Var) → Bool
  | [], _ => true
  | (k, v) :: rest, seen =>
    match k with
    | Var.letter ch =>
      if ch ∈ c.letters then
        match alookup seen v with
        | some k0 =>
          if k0 ≠ k then false else allDiffScan c rest (aset seen v k)
        | none => allDiffScan c rest (aset seen v k)
      else allDiffScan c rest seen
    | Var.carry _ => allDiffScan c rest seen

/-- The sum of the operand digits of a column under a tuple mapping; none
when a present operand letter is missing from the mapping (the Python code
then skips the tuple). -/
def colSum (c : Ctx) (col : Nat) (mapping : List (Var × Nat)) : Option Nat :=
  (c.colOps col).foldl (fun acc o =>
    match acc, o with
    | none, _ => none
    | some s, none => some s
    | some s, some ch =>
      match alookup mapping (Var.letter ch) with
      | none => none
      | some v => some (s + v)) (some 0)

/-- Whether one column tuple satisfies the column constraint: all-different
among its letters, the digit equation with carry-in, the result digit, and
the expected carry-out. This predicate is shared verbatim by the feasibility
check and the column pruning pass in the source. -/
def colTupleOk (c : Ctx) (col : Nat) (mapping : List (Var × Nat)) : Bool :=
  if allDiffScan c mapping [] then
    match colSum c col mapping with
    | none => false
    | some s0 =>
      let cin := if col ≥ 1 then (alookup mapping (Var.carry (col - 1))).getD 0 else 0
      let s := s0 + cin
      let digit := s % 10
      let coutExpected := s / 10
      (match c.colRes col with
       | none => digit == 0
       | some ch => alookup mapping (Var.letter ch) == some digit)
      && (alookup mapping (Var.carry col) == some coutExpected)
  else false

/-- Short-circuit search of a cartesian product for a tuple passing a test,
in the lexicographic order of itertools.product. -/
def anyTuple : List (List Nat) → (List Nat → Bool) → Bool
  | [], test => test []
  | dom :: ds, test => dom.any (fun x => anyTuple ds (fun xs => test (x :: xs)))

/-- The full cartesian product as a list of tuples, in the lexicographic
order of itertools.product. -/
def allTuples : List (List Nat) → List (List Nat)
  | [] => [[]]
  | dom :: ds =>
    let rest := allTuples ds
    dom.flatMap (fun x => rest.map (fun xs => x :: xs))

/-- Whether a column has at least one supporting tuple given the current
assignment and domains. -/
def colFeasible (c : Ctx) (col : Nat) (a : Assign) (d : Doms) : Bool :=
  let keys := c.colInvolved col
  let doms := keys.map (domList a d)
  anyTuple doms (fun vals => colTupleOk c col (buildMapping keys vals))

/-- The topmost-carry-must-be-zero rule of carries_consistent_partial. -/
def topCarryOk (c : Ctx) (a : Assign) (d : Doms) : Bool :=
  if c.result.length ≤ c.maxLen then
    match alookup a (Var.carry (c.maxLen - 1)) with
    | some x => x == 0
    | none => ((alookup d (Var.carry (c.maxLen - 1))).getD []).contains 0
  else true

/-- carries_consistent_partial: every column has a supporting tuple and the
top carry can still be zero. -/
def carriesConsistentPartial (c : Ctx) (a : Assign) (d : Doms) : Bool :=
  ((List.range c.maxLen).all (fun col => colFeasible c col a d))
  && topCarryOk c a d

/-- Fuel-based helper for the decimal length; the fuel always suffices since
division by ten reaches the single-digit range within n steps. -/
def decimalLenAux : Nat → Nat → Nat
  | 0, _ => 1
  | Nat.succ fuel, n => if n < 10 then 1 else 1 + decimalLenAux fuel (n / 10)

/-- Length of the decimal representation of a natural number, as produced by
the Python str call. -/
def decimalLen (n : Nat) : Nat := decimalLenAux n n

/-- The numeric value of a word under a letter mapping, built as the Python
code does by concatenating decimal representations and parsing the string;
none models the exception on a missing letter or an empty string. -/
def wordValuePy (m : List (Char × Nat)) (w : List Char) : Option Nat :=
  if w.isEmpty then none
  else w.foldl (fun acc ch =>
    match acc, alookup m ch with
    | some s, some dgt => some (s * 10 ^ decimalLen dgt + dgt)
    | _, _ => none) (some 0)

/-- evaluate_full_assignment: the independent numeric recomputation checking
that the addends sum to the result. -/
def evaluateFullAssignment (c : Ctx) (m : List (Char × Nat)) : Bool :=
  match c.words.mapM (wordValuePy m), wordValuePy m c.result with
  | some addends, some rv => addends.sum == rv
  | _, _ => false

/-- all_different_consistent: the cheap pre-check that a candidate value does
not collide with an already assigned neighbor. -/
def allDifferentConsistent (c : Ctx) (var : Var) (val : Nat) (a : Assign) : Bool :=
  (c.neighbors var).all (fun n => !(alookup a (Var.letter n) == some val))

/-- revise_all_diff: remove from the domain of xi any value a such that the
domain of xj is exactly the singleton of a. -/
def reviseAllDiff (xi xj : Var) (d : Doms) : Doms × List Nat :=
  let dj := (alookup d xj).getD []
  let di := (alookup d xi).getD []
  let removed := di.filter (fun a => dj.length == 1 && dj.contains a)
  if removed.isEmpty then (d, removed)
  else (aset d xi (di.filter (fun a => !(dj.length == 1 && dj.contains a))), removed)

/-- The initial AC-3 work queue of ordered letter pairs. -/
def Ctx.initQueue (c : Ctx) : List (Var × Var) :=
  c.letters.flatMap (fun xi =>
    (c.neighbors (Var.letter xi)).map (fun xj => (Var.letter xi, Var.letter xj)))

/-- The binary all-different AC-3 loop, with explicit fuel standing in for
the unbounded Python while loop (the fuel used always exceeds the bound on
the number of iterations, so exhaustion never occurs on real runs). -/
def ac3Loop (c : Ctx) : Nat → List (Var × Var) → Doms → List Ev → Bool × Doms × List Ev
  | 0, _, d, evs => (true, d, evs)
  | Nat.succ _, [], d, evs => (true, d, evs)
  | Nat.succ fuel, (xi, xj) :: q, d, evs =>
    match reviseAllDiff xi xj d with
    | (d1, removed) =>
      if removed.isEmpty then ac3Loop c fuel q d1 evs
      else
        let evs1 := evs ++ [Ev.pruneEv xi (sortNat removed)]
        if ((alookup d1 xi).getD []).isEmpty then (false, d1, evs1)
        else
          ac3Loop c fuel
            (q ++ (c.neighbors xi).filterMap (fun xk =>
              if Var.letter xk ≠ xj then some (Var.letter xk, xi) else none))
            d1 evs1

/-- Record one supported value for a variable in the supported-sets map. -/
def addSupport (sup : List (Var × List Nat)) (k : Var) (v : Nat) : List (Var × List Nat) :=
  match alookup sup k with
  | some vs => if vs.contains v then sup else aset sup k (vs ++ [v])
  | none => aset sup k [v]

/-- Merge newly removed values of a variable into the removal map, as the
Python defaultdict set update. -/
def rmUpdate (rm : List (Var × List Nat)) (v : Var) (toRemove : List Nat) :
    List (Var × List Nat) :=
  let old := (alookup rm v).getD []
  aset rm v (old ++ toRemove.filter (fun x => !(old.contains x)))

/-- One column of prune_column_columnwise: enumerate all tuples over the
current domains, collect supported values, and drop unsupported ones. -/
def pruneOneColumn (c : Ctx) (col : Nat) (st : Doms × List (Var × List Nat)) :
    Doms × List (Var × List Nat) :=
  let d := st.1
  let keys := c.colInvolved col
  let domLists := keys.map (fun v => (alookup d v).getD [])
  let supported := (allTuples domLists).foldl (fun sup vals =>
      let mapping := buildMapping keys vals
      if colTupleOk c col mapping then
        mapping.foldl (fun sup kv => addSupport sup kv.1 kv.2) sup
      else sup)
    (keys.foldl (fun s v =>
      match alookup s v with
      | some _ => s
      | none => s ++ [(v, [])]) [])
  keys.foldl (fun st v =>
    let dv := (alookup st.1 v).getD []
    let sup := (alookup supported v).getD []
    let toRemove := dv.filter (fun x => !(sup.contains x))
    if toRemove.isEmpty then st
    else (aset st.1 v (dv.filter (fun x => sup.contains x)), rmUpdate st.2 v toRemove))
    st

/-- prune_column_columnwise over all columns, followed by the top-carry
emptying rule. -/
def pruneColumnwise (c : Ctx) (d : Doms) : Doms × List (Var × List Nat) :=
  let st := (List.range c.maxLen).foldl (fun st col => pruneOneColumn c col st) (d, [])
  if c.result.length ≤ c.maxLen then
    let top := Var.carry (c.maxLen - 1)
    let dtop := (alookup st.1 top).getD []
    if !(dtop.contains 0) then (aset st.1 top [], rmUpdate st.2 top dtop)
    else st
  else st

/-- Emit one AC3_PRUNE event per nonempty removal set and fail on the first
emptied domain, as the loop in run_ac3_propagation. -/
def emitPruneEvents (d : Doms) : List (Var × List Nat) → List Ev → Bool × List Ev
  | [], evs => (true, evs)
  | (v, removed) :: rest, evs =>
    if removed.isEmpty then emitPruneEvents d rest evs
    else
      let evs1 := evs ++ [Ev.pruneEv v (sortNat removed)]
      if ((alookup d v).getD []).isEmpty then (false, evs1)
      else emitPruneEvents d rest evs1

/-- Fuel for the AC-3 queue loop; a generous bound above the maximum number
of iterations the queue can ever see. -/
def Ctx.ac3Fuel (c : Ctx) : Nat :=
  12 * c.letters.length * c.letters.length + c.letters.length + 12

/-- run_ac3_propagation: binary all-different revision to fixpoint, then the
column pruning pass, then the feasibility gate. -/
def runAc3Propagation (c : Ctx) (d : Doms) (a : Assign) : Bool × Doms × List Ev :=
  match ac3Loop c c.ac3Fuel c.initQueue d [] with
  | (false, d1, evs) => (false, d1, evs)
  | (true, d1, evs) =>
    let pr := pruneColumnwise c d1
    match emitPruneEvents pr.1 pr.2 evs with
    | (false, evs2) => (false, pr.1, evs2)
    | (true, evs2) =>
      if carriesConsistentPartial c a pr.1 then (true, pr.1, evs2)
      else (false, pr.1, evs2)

/-- snapshot_domains: a per-entry copy of the domain map. -/
def snapshotDomains (d : Doms) : Doms := d.map (fun kv => (kv.1, kv.2))

/-- The backtracking restore: every current key is reset to its contents in
the snapshot (empty when absent there). -/
def restoreDoms (cur snap : Doms) : Doms :=
  cur.map (fun kv => (kv.1, (alookup snap kv.1).getD []))

/-- Forward checking: drop the just-assigned value from the domains of the
unassigned all-different neighbors. -/
def forwardCheck (c : Ctx) (var : Var) (val : Nat) (a : Assign) (d : Doms) : Doms :=
  (c.neighbors var).foldl (fun d other =>
    let ov := Var.letter other
    if (alookup a ov).isNone && ((alookup d ov).getD []).contains val then
      aset d ov (((alookup d ov).getD []).filter (fun x => x != val))
    else d) d

/-- Lexicographic comparison of the MRV and negated-degree key pair, as the
Python tuple comparison in the selection sort. -/
def keyLt (p q : Nat × Int) : Bool :=
  if p.1 < q.1 then true else if p.1 = q.1 ∧ p.2 < q.2 then true else false

/-- The selection key of a variable: current domain size, then negated
all-different degree. -/
def selectKey (c : Ctx) (d : Doms) (v : Var) : Nat × Int :=
  (((alookup d v).getD []).length, -(Int.ofNat (c.neighbors v).length))

/-- select_unassigned_var: the first unassigned variable in pool order with
the lexicographically smallest key (equal to the head of the Python stable
sort). -/
def selectUnassignedVar (c : Ctx) (a : Assign) (d : Doms) : Option Var :=
  match (c.variables).filter (fun v => (alookup a v).isNone) with
  | [] => none
  | u :: us => some (us.foldl (fun best v =>
      if keyLt (selectKey c d v) (selectKey c d best) then v else best) u)

/-- Solver state threaded through the search: the trace so far and the node
counter. -/
structure St where
  trace : List Ev
  steps : Nat
deriving Repr

def St.push (st : St) (e : Ev) : St := { st with trace := st.trace ++ [e] }

def St.pushAll (st : St) (es : List Ev) : St := { st with trace := st.trace ++ es }

def St.incSteps (st : St) : St := { st with steps := st.steps + 1 }

/-- Result of one backtracking call: state, assignment, domains, and the
optional solution. -/
abbrev BTRes := St × Assign × Doms × Option (List (Char × Nat))

/-- One candidate value at a search node: the cheap all-different pre-check,
the tentative assignment with its ASSIGN event and snapshot, forward
checking, the consistency check of the current mode, the recursion, and the
UNASSIGN plus restore on failure. -/
def tryOne (c : Ctx) (recur : Assign → Doms → St → BTRes)
    (var : Var) (val : Nat) (a : Assign) (d : Doms) (st : St) : BTRes :=
  if c.isLetterVar var && !(allDifferentConsistent c var val a) then (st, a, d, none)
  else
    let a1 := aset a var val
    let st1 := st.push (Ev.assignEv var val)
    let snap := snapshotDomains d
    let d1 := if c.isLetterVar var then forwardCheck c var val a1 d else d
    let step :=
      if c.useAc3 then
        match runAc3Propagation c d1 a1 with
        | (ok, dp, evs) => (ok, dp, st1.pushAll evs)
      else (carriesConsistentPartial c a1 d1, d1, st1)
    match step with
    | (consistent, d2, st2) =>
      if consistent then
        match recur a1 d2 st2 with
        | (st3, a3, d3, some sol) =>
          if sol.isEmpty then
            (st3.push (Ev.unassignEv var), aerase a3 var, restoreDoms d3 snap, none)
          else (st3, a3, d3, some sol)
        | (st3, a3, d3, none) =>
          (st3.push (Ev.unassignEv var), aerase a3 var, restoreDoms d3 snap, none)
      else (st2.push (Ev.unassignEv var), aerase a1 var, restoreDoms d2 snap, none)

/-- The value loop of one search node, ascending through the candidate
values. -/
def tryVals (c : Ctx) (recur : Assign → Doms → St → BTRes) (var : Var) :
    List Nat → Assign → Doms → St → BTRes
  | [], a, d, st => (st, a, d, none)
  | val :: rest, a, d, st =>
    match tryOne c recur var val a d st with
    | (st1, a1, d1, some sol) => (st1, a1, d1, some sol)
    | (st1, a1, d1, none) => tryVals c recur var rest a1 d1 st1

/-- Whether every letter is assigned (the set-equality check on the letter
map keys). -/
def lettersAllAssigned (c : Ctx) (a : Assign) : Bool :=
  c.letters.all (fun ch => (alookup a (Var.letter ch)).isSome)

/-- The letter-only sub-assignment handed to the final numeric check. -/
def letterMapOf (c : Ctx) (a : Assign) : List (Char × Nat) :=
  c.letters.filterMap (fun ch => (alookup a (Var.letter ch)).map (fun v => (ch, v)))

/-- The solution mapping emitted on success, letter by letter in pool order;
in the emitting branch every letter is assigned, so the default is never
taken. -/
def solMapOf (c : Ctx) (a : Assign) : List (Char × Nat) :=
  c.letters.map (fun ch => (ch, (alookup a (Var.letter ch)).getD 0))

/-- The backtracking search. Fuel stands in for the unbounded Python
recursion; the initial fuel exceeds the maximal recursion depth, which is
bounded because every recursive call carries one more assigned variable. -/
def backtrack (c : Ctx) : Nat → Assign → Doms → St → BTRes
  | 0, a, d, st => (st, a, d, none)
  | Nat.succ fuel, a, d, st =>
    let st2 := ((st.incSteps).push (Ev.curAssign a)).push (Ev.curDomains d)
    if a.length = c.variables.length then
      if carriesConsistentPartial c a d then
        if lettersAllAssigned c a then
          if evaluateFullAssignment c (letterMapOf c a) then
            let sol := solMapOf c a
            (st2.push (Ev.endEv (some sol) none none), a, d, some sol)
          else (st2, a, d, none)
        else (st2, a, d, none)
      else (st2, a, d, none)
    else
      match selectUnassignedVar c a d with
      | none => (st2, a, d, none)
      | some var => tryVals c (backtrack c fuel) var ((alookup d var).getD []) a d st2

/-- Normalization of the preset dict: keys uppercased, a later duplicate key
overwriting the value of an earlier one. -/
def normalizePreset (bus : List (Char × Nat)) : List (Char × Nat) :=
  bus.foldl (fun m kv => aset m kv.1.toUpper kv.2) []

/-- The preset application loop: each entry must name a known variable and a
value inside its current domain; the domain then collapses to the singleton.
Returns none on the first inconsistent entry. -/
def applyPreset : List (Char × Nat) → Assign → Doms → Option (Assign × Doms)
  | [], a, d => some (a, d)
  | (k, v) :: rest, a, d =>
    if (alookup d (Var.letter k)).isSome && ((alookup d (Var.letter k)).getD []).contains v then
      applyPreset rest (aset a (Var.letter k) v) (aset d (Var.letter k) [v])
    else none

/-- The observable outcome of one solve call: the full trace, the node
counter, and the returned solution. -/
structure SolveOut where
  trace : List Ev
  steps : Nat
  solution : Option (List (Char × Nat))
deriving Repr

/-- Build the per-solve constants from the raw inputs (normalization to
uppercase included). -/
def mkCtx (words0 : List (List Char)) (result0 : List Char) (useAc3 : Bool) : Ctx :=
  let words := words0.map (fun w => w.map Char.toUpper)
  let result := result0.map Char.toUpper
  { words := words, result := result,
    letters := lettersOf (words ++ [result]),
    maxLen := maxLenOf (words ++ [result]),
    maxCarry := words.length,
    useAc3 := useAc3 }

/-- The top-level search launch and terminal events. -/
def searchPhase (c : Ctx) (a0 : Assign) (d1 : Doms) (trace2 : List Ev) : SolveOut :=
  match backtrack c (c.variables.length + 1) a0 (snapshotDomains d1)
      { trace := trace2, steps := 0 } with
  | (st, _, _, none) =>
    { trace := st.trace ++ [Ev.endEv none (some reasonNoSolution) (some st.steps),
                            Ev.doneEv doneNote],
      steps := st.steps, solution := none }
  | (st, _, _, some m) =>
    { trace := st.trace ++ [Ev.endEv (some m) (some reasonSolved) (some st.steps),
                            Ev.doneEv doneNote],
      steps := st.steps, solution := some m }

/-- solve_cryptarithm: normalize, build, apply the preset, optionally run the
initial propagation, search, and emit the terminal events. -/
def solveCryptarithm (words0 : List (List Char)) (result0 : List Char)
    (bus : Option (List (Char × Nat))) (useAc3 : Bool) : SolveOut :=
  let c := mkCtx words0 result0 useAc3
  let trace0 := [Ev.start c.words c.result useAc3]
  let d0 := c.initialDomains
  match applyPreset (normalizePreset (bus.getD [])) [] d0 with
  | none =>
    { trace := trace0 ++ [Ev.endEv none (some reasonPreset) none, Ev.doneEv doneNote],
      steps := 0, solution := none }
  | some (a0, d1) =>
    let trace1 := trace0 ++ [Ev.curAssign a0, Ev.curDomains d1]
    if c.useAc3 then
      match runAc3Propagation c d1 a0 with
      | (false, _, evs) =>
        { trace := trace1 ++ evs ++ [Ev.endEv none (some reasonAc3Start) none,
                                     Ev.doneEv doneNote],
          steps := 0, solution := none }
      | (true, d2, evs) => searchPhase c a0 d2 (trace1 ++ evs)
    else searchPhase c a0 d1 trace1

/-- The returned assignment of one solve call. -/
def solveSol (w : List (List Char)) (r : List Char)
    (p : Option (List (Char × Nat))) (b : Bool) : Option (List (Char × Nat)) :=
  (solveCryptarithm w r p b).solution

/-- The trace of one solve call. -/
def solveTrace (w : List (List Char)) (r : List Char)
    (p : Option (List (Char × Nat))) (b : Bool) : List Ev :=
  (solveCryptarithm w r p b).trace

/-- The node counter reported by one solve call. -/
def solveSteps (w : List (List Char)) (r : List Char)
    (p : Option (List (Char × Nat))) (b : Bool) : Nat :=
  (solveCryptarithm w r p b).steps

/-
The remaining definitions are proof-side accelerators for evaluating the
solver on concrete puzzles inside the kernel. They are proved equal to the
faithful definitions above (on contexts whose columns involve pairwise
distinct variables), and the claim theorems always speak about the faithful
definitions.
-/

/-- Number of tuples in a cartesian product of domains. -/
def prodSize (ds : List (List Nat)) : Nat := ds.foldr (fun l acc => l.length * acc) 1

/-- Decode a mixed-radix index into the tuple it denotes in the cartesian
product of the given domains. -/
def decodeTuple : List (List Nat) → Nat → List Nat
  | [], _ => []
  | dom :: rest, t => dom.getD (t % dom.length) 0 :: decodeTuple rest (t / dom.length)

/-- Bounded existential over indices below n, written with a bare recursor so
the kernel evaluates it without recursion-compilation overhead. -/
def existsIdx (n : Nat) (p : Nat → Bool) : Bool :=
  Nat.rec false (fun k ih => p k || ih) n

/-- Pairwise distinctness of a list of digits. -/
def distinctList : List Nat → Bool
  | [] => true
  | x :: t => !(t.contains x) && distinctList t

/-- Positional layout of one column: number of present operand letters, and
presence flags for the result letter and the carry-in. -/
structure ColPlan where
  nops : Nat
  hasRes : Bool
  hasCin : Bool
deriving Repr, DecidableEq

/-- The positional layout of a column; positions in a column tuple are the
present operands first, then the result letter, then carry-in, then
carry-out, in the order colInvolved lists them. -/
def Ctx.colPlan (c : Ctx) (col : Nat) : ColPlan :=
  { nops := ((c.colOps col).filterMap id).length
    hasRes := (c.colRes col).isSome
    hasCin := col ≥ 1 }

/-- Positional version of the per-tuple column test. -/
def fastTest (pl : ColPlan) (vals : List Nat) : Bool :=
  let opVals := vals.take pl.nops
  let letterVals := opVals ++ (if pl.hasRes then [vals.getD pl.nops 0] else [])
  let cin := if pl.hasCin then vals.getD (pl.nops + (if pl.hasRes then 1 else 0)) 0 else 0
  let cout := vals.getD (pl.nops + (if pl.hasRes then 1 else 0) + (if pl.hasCin then 1 else 0)) 0
  let s := opVals.foldl (fun x y => x + y) 0 + cin
  let digit := s % 10
  distinctList letterVals
  && (if pl.hasRes then vals.getD pl.nops 0 == digit else digit == 0)
  && (cout == s / 10)

/-- Accelerated column feasibility: integer-indexed enumeration of the same
cartesian product with the positional test. -/
def fastColFeasible (c : Ctx) (col : Nat) (a : Assign) (d : Doms) : Bool :=
  let keys := c.colInvolved col
  let doms := keys.map (domList a d)
  let pl := c.colPlan col
  existsIdx (prodSize doms) (fun t => fastTest pl (decodeTuple doms t))

/-- Accelerated carries_consistent_partial. -/
def carriesFast (c : Ctx) (a : Assign) (d : Doms) : Bool :=
  ((List.range c.maxLen).all (fun col => fastColFeasible c col a d))
  && topCarryOk c a d

/-- The AC-3 queue loop without the event log (the events never influence
the control flow). -/
def ac3LoopNT (c : Ctx) : Nat → List (Var × Var) → Doms → Bool × Doms
  | 0, _, d => (true, d)
  | Nat.succ _, [], d => (true, d)
  | Nat.succ fuel, (xi, xj) :: q, d =>
    match reviseAllDiff xi xj d with
    | (d1, removed) =>
      if removed.isEmpty then ac3LoopNT c fuel q d1
      else
        if ((alookup d1 xi).getD []).isEmpty then (false, d1)
        else
          ac3LoopNT c fuel
            (q ++ (c.neighbors xi).filterMap (fun xk =>
              if Var.letter xk ≠ xj then some (Var.letter xk, xi) else none))
            d1

/-- The removal-map scan of run_ac3_propagation without the event log. -/
def emitPruneNT (d : Doms) : List (Var × List Nat) → Bool
  | [] => true
  | (v, removed) :: rest =>
    if removed.isEmpty then emitPruneNT d rest
    else
      if ((alookup d v).getD []).isEmpty then false
      else emitPruneNT d rest

/-- Accelerated propagation: same passes, no event log, accelerated final
gate. -/
def runAc3F (c : Ctx) (d : Doms) (a : Assign) : Bool × Doms :=
  match ac3LoopNT c c.ac3Fuel c.initQueue d with
  | (false, d1) => (false, d1)
  | (true, d1) =>
    let pr := pruneColumnwise c d1
    if emitPruneNT pr.1 pr.2 then
      if carriesFast c a pr.1 then (true, pr.1) else (false, pr.1)
    else (false, pr.1)

/-- Result triple of the accelerated search: assignment, domains, solution. -/
abbrev FRes := Assign × Doms × Option (List (Char × Nat))

/-- Accelerated tryOne: no event log, accelerated consistency checks. -/
def tryOneF (c : Ctx) (recur : Assign → Doms → FRes)
    (var : Var) (val : Nat) (a : Assign) (d : Doms) : FRes :=
  if c.isLetterVar var && !(allDifferentConsistent c var val a) then (a, d, none)
  else
    let a1 := aset a var val
    let snap := snapshotDomains d
    let d1 := if c.isLetterVar var then forwardCheck c var val a1 d else d
    let step :=
      if c.useAc3 then runAc3F c d1 a1
      else (carriesFast c a1 d1, d1)
    match step with
    | (consistent, d2) =>
      if consistent then
        match recur a1 d2 with
        | (a3, d3, some sol) =>
          if sol.isEmpty then (aerase a3 var, restoreDoms d3 snap, none)
          else (a3, d3, some sol)
        | (a3, d3, none) => (aerase a3 var, restoreDoms d3 snap, none)
      else (aerase a1 var, restoreDoms d2 snap, none)

/-- Accelerated value loop. -/
def tryValsF (c : Ctx) (recur : Assign → Doms → FRes) (var : Var) :
    List Nat → Assign → Doms → FRes
  | [], a, d => (a, d, none)
  | val :: rest, a, d =>
    match tryOneF c recur var val a d with
    | (a1, d1, some sol) => (a1, d1, some sol)
    | (a1, d1, none) => tryValsF c recur var rest a1 d1

/-- Accelerated backtracking search. -/
def backtrackF (c : Ctx) : Nat → Assign → Doms → FRes
  | 0, a, d => (a, d, none)
  | Nat.succ fuel, a, d =>
    if a.length = c.variables.length then
      if carriesFast c a d then
        if lettersAllAssigned c a then
          if evaluateFullAssignment c (letterMapOf c a) then (a, d, some (solMapOf c a))
          else (a, d, none)
        else (a, d, none)
      else (a, d, none)
    else
      match selectUnassignedVar c a d with
      | none => (a, d, none)
      | some var => tryValsF c (backtrackF c fuel) var ((alookup d var).getD []) a d

/-- Accelerated solver returning only the solution. -/
def solveF (words0 : List (List Char)) (result0 : List Char)
    (bus : Option (List (Char × Nat))) (useAc3 : Bool) : Option (List (Char × Nat)) :=
  let c := mkCtx words0 result0 useAc3
  let d0 := c.initialDomains
  match applyPreset (normalizePreset (bus.getD [])) [] d0 with
  | none => none
  | some (a0, d1) =>
    if c.useAc3 then
      match runAc3F c d1 a0 with
      | (false, _) => none
      | (true, d2) => (backtrackF c (c.variables.length + 1) a0 (snapshotDomains d2)).2.2
    else (backtrackF c (c.variables.length + 1) a0 (snapshotDomains d1)).2.2

/-- Whether an event is the SOLVER_DONE sentinel. -/
def Ev.isDone : Ev → Bool
  | Ev.doneEv _ => true
  | _ => false

/-- Whether an event is an ASSIGN event. -/
def Ev.isAssign : Ev → Bool
  | Ev.assignEv _ _ => true
  | _ => false

/-- The field discipline of END events as the code emits them: an END either
carries a reason, or it is the in-search success END carrying a result and
no steps. Non-END events satisfy this trivially. -/
def endFieldsOk : Ev → Bool
  | Ev.endEv res reason steps => reason.isSome || (res.isSome && steps.isNone)
  | _ => true

/-- The event kinds that the search itself may append to the trace: progress
snapshots, assignments, prunes, unassignments, and the in-search success END
(with only the result field). Used to transport per-event facts through the
search. -/
def searchEvOk (P : Ev → Bool) : Prop :=
  (∀ a, P (Ev.curAssign a) = true) ∧ (∀ d, P (Ev.curDomains d) = true)
  ∧ (∀ v n, P (Ev.assignEv v n) = true) ∧ (∀ v r, P (Ev.pruneEv v r) = true)
  ∧ (∀ v, P (Ev.unassignEv v) = true) ∧ (∀ s, P (Ev.endEv (some s) none none) = true)

/-- The base-10 value of a word under a letter-to-digit mapping, the
specification-side reading of the numeric equation: digits are composed most
significant first. -/
def numValue (m : List (Char × Nat)) (w : List Char) : Nat :=
  w.foldl (fun acc ch => acc * 10 + (alookup m ch).getD 0) 0

/-- Two distinct letters never hold the same digit in an assignment. -/
def LettersDistinct (c : Ctx) (a : Assign) : Prop :=
  ∀ x y vx vy, x ∈ c.letters → y ∈ c.letters → x ≠ y →
    alookup a (Var.letter x) = some vx → alookup a (Var.letter y) = some vy → vx ≠ vy

/-- The invariant carried through the search for the soundness results: the
assignment has no duplicate keys, assigned letters hold single digits, the
letter domains contain only single digits, and (conditionally on the premise
P, instantiated with the injectivity of the preset) distinct letters hold
distinct digits. -/
def SearchInv (c : Ctx) (P : Prop) (a : Assign) (d : Doms) : Prop :=
  (a.map Prod.fst).Nodup
  ∧ (∀ ch val, ch ∈ c.letters → alookup a (Var.letter ch) = some val → val ≤ 9)
  ∧ (∀ ch val, ch ∈ c.letters → val ∈ (alookup d (Var.letter ch)).getD [] → val ≤ 9)
  ∧ (P → LettersDistinct c a)

/-- Domain maps compared pointwise by inclusion of their value sets. -/
def DomsSub (dn d : Doms) : Prop :=
  ∀ v x, x ∈ (alookup dn v).getD [] → x ∈ (alookup d v).getD []

/-- What holds of every solution the search can emit: it is the solution map
of a full assignment that passes the final checks, whose letter values are
single digits and (conditionally on P) pairwise distinct. -/
def SoundSol (c : Ctx) (P : Prop) (sol : List (Char × Nat)) : Prop :=
  ∃ af : Assign, lettersAllAssigned c af = true
    ∧ evaluateFullAssignment c (letterMapOf c af) = true
    ∧ sol = solMapOf c af
    ∧ (∀ ch val, ch ∈ c.letters → alookup af (Var.letter ch) = some val → val ≤ 9)
    ∧ (P → LettersDistinct c af)

/-- The per-character step of the int-parsing fold inside word_value, named
for the numeric-equation bridge. -/
def pyStep (m : List (Char × Nat)) (acc : Option Nat) (ch : Char) : Option Nat :=
  match acc, alookup m ch with
  | some s, some dgt => some (s * 10 ^ decimalLen dgt + dgt)
  | _, _ => none

/-
Helper lemmas about the association-list dictionary operations.
-/

theorem alookup_aset_self {α β : Type} [DecidableEq α] (m : List (α × β)) (k : α) (v : β) :
    alookup (aset m k v) k = some v := by
  induction m with
  | nil => simp [aset, alookup]
  | cons kv t ih =>
    obtain ⟨k0, v0⟩ := kv
    by_cases h : k0 = k
    · subst h; simp [aset, alookup]
    · simp [aset, alookup, h, ih]

theorem alookup_aset_ne {α β : Type} [DecidableEq α] (m : List (α × β)) (k k' : α) (v : β)
    (h : k' ≠ k) : alookup (aset m k v) k' = alookup m k' := by
  have hkk : ¬ (k = k') := fun he => h he.symm
  induction m with
  | nil => simp [aset, alookup, hkk]
  | cons kv t ih =>
    obtain ⟨k0, v0⟩ := kv
    by_cases h0 : k0 = k
    · subst h0
      simp [aset, alookup, hkk]
    · simp [aset, alookup, h0, ih]

theorem alookup_nil {α β : Type} [DecidableEq α] (k : α) :
    alookup ([] : List (α × β)) k = none := rfl

theorem alookup_append {α β : Type} [DecidableEq α] (l1 l2 : List (α × β)) (k : α) :
    alookup (l1 ++ l2) k
      = match alookup l1 k with
        | some v => some v
        | none => alookup l2 k := by
  induction l1 with
  | nil => simp [alookup]
  | cons kv t ih =>
    obtain ⟨k0, v0⟩ := kv
    by_cases h : k0 = k
    · subst h; simp [alookup]
    · simp [alookup, h, ih]

theorem alookup_map_letter (k : Char) (f : Char → List Nat) :
    ∀ (ls : List Char),
      alookup (ls.map (fun ch => (Var.letter ch, f ch))) (Var.letter k)
        = if k ∈ ls then some (f k) else none := by
  intro ls
  induction ls with
  | nil => simp [alookup]
  | cons c0 t ih =>
    by_cases h : c0 = k
    · subst h; simp [alookup]
    · have hv : Var.letter c0 ≠ Var.letter k := by
        intro he; exact h (by injection he)
      have hkc : ¬ k = c0 := fun hk => h hk.symm
      simp [alookup, hv, ih, hkc]

theorem alookup_map_carry_letter (k : Char) (g : Nat → List Nat) :
    ∀ (is : List Nat),
      alookup (is.map (fun i => (Var.carry i, g i))) (Var.letter k) = none := by
  intro is
  induction is with
  | nil => simp [alookup]
  | cons i t ih =>
    have : Var.carry i ≠ Var.letter k := by intro he; exact Var.noConfusion he
    simp [alookup, this, ih]

/-- The initial domain of a letter variable: present exactly for the letters
of the puzzle, with the leading-letter restriction. -/
theorem initialDomains_letter (c : Ctx) (k : Char) :
    alookup c.initialDomains (Var.letter k)
      = if k ∈ c.letters
        then some (if k ∈ c.leadingLetters
          then (List.range 9).map (fun i => i + 1) else List.range 10)
        else none := by
  unfold Ctx.initialDomains
  rw [alookup_append]
  rw [alookup_map_letter k
    (fun ch => if ch ∈ c.leadingLetters then (List.range 9).map (fun i => i + 1)
      else List.range 10)]
  by_cases h : k ∈ c.letters
  · simp [h]
  · simp only [h, if_neg, if_false]
    unfold Ctx.carryVars
    rw [List.map_map]
    exact alookup_map_carry_letter k _ _

theorem aset_keys_mem {α β : Type} [DecidableEq α] (m : List (α × β)) (k : α) (v : β) (x : α) :
    x ∈ (aset m k v).map Prod.fst ↔ x ∈ m.map Prod.fst ∨ x = k := by
  induction m with
  | nil => simp [aset]
  | cons kv t ih =>
    obtain ⟨k0, v0⟩ := kv
    by_cases h : k0 = k
    · subst h
      simp [aset]
      intro hx
      exact Or.inl hx
    · simp [aset, h, ih]
      tauto

theorem aset_keys_nodup {α β : Type} [DecidableEq α] (m : List (α × β)) (k : α) (v : β)
    (h : (m.map Prod.fst).Nodup) : ((aset m k v).map Prod.fst).Nodup := by
  induction m with
  | nil => simp [aset]
  | cons kv t ih =>
    obtain ⟨k0, v0⟩ := kv
    simp only [List.map_cons, List.nodup_cons] at h
    by_cases h0 : k0 = k
    · subst h0
      have hset : aset ((k0, v0) :: t) k0 v = (k0, v) :: t := by simp [aset]
      rw [hset]
      simp only [List.map_cons, List.nodup_cons]
      exact h
    · have hset : aset ((k0, v0) :: t) k v = (k0, v0) :: aset t k v := by simp [aset, h0]
      rw [hset]
      simp only [List.map_cons, List.nodup_cons]
      refine ⟨?_, ih h.2⟩
      rw [aset_keys_mem]
      rintro (hx | hx)
      · exact h.1 hx
      · exact h0 hx

theorem normalizePreset_keys_nodup (bus : List (Char × Nat)) :
    ((normalizePreset bus).map Prod.fst).Nodup := by
  unfold normalizePreset
  suffices h : ∀ (acc : List (Char × Nat)), (acc.map Prod.fst).Nodup →
      ((bus.foldl (fun m kv => aset m kv.1.toUpper kv.2) acc).map Prod.fst).Nodup by
    exact h [] (by simp)
  induction bus with
  | nil => intro acc hacc; simpa using hacc
  | cons kv rest ih =>
    intro acc hacc
    exact ih _ (aset_keys_nodup _ _ _ hacc)

/-- If the normalized preset contains an entry failing the build-time check
against the current domain map, preset application fails. -/
theorem applyPreset_bad :
    ∀ (entries : List (Char × Nat)) (a : Assign) (d : Doms),
      ((entries.map Prod.fst).Nodup) →
      (∃ kv, kv ∈ entries ∧
        ¬ (((alookup d (Var.letter kv.1)).isSome
            && ((alookup d (Var.letter kv.1)).getD []).contains kv.2) = true)) →
      applyPreset entries a d = none := by
  intro entries
  induction entries with
  | nil =>
    intro a d hnd hbad
    obtain ⟨kv, hkv, _⟩ := hbad
    exact absurd hkv (by simp)
  | cons kv0 rest ih =>
    intro a d hnd hbad
    obtain ⟨k0, v0⟩ := kv0
    by_cases hc : ((alookup d (Var.letter k0)).isSome
        && ((alookup d (Var.letter k0)).getD []).contains v0) = true
    · simp only [applyPreset, if_pos hc]
      obtain ⟨kv, hkv, hbadkv⟩ := hbad
      rcases List.mem_cons.mp hkv with heq | hmem
      · exact absurd hc (by rw [heq] at hbadkv; exact hbadkv)
      · simp only [List.map_cons, List.nodup_cons] at hnd
        have hne : kv.1 ≠ k0 := by
          intro he
          exact hnd.1 (he ▸ (List.mem_map.mpr ⟨kv, hmem, rfl⟩))
        have hlift : Var.letter kv.1 ≠ Var.letter k0 := by
          intro he; exact hne (by injection he)
        refine ih _ _ hnd.2 ⟨kv, hmem, ?_⟩
        rwa [alookup_aset_ne _ _ _ _ hlift]
    · simp only [applyPreset, if_neg hc]

/-
Trace transport lemmas: every event the running search appends satisfies any
predicate that holds of the search event kinds.
-/

theorem ac3Loop_all (c : Ctx) (P : Ev → Bool) (hP : ∀ v r, P (Ev.pruneEv v r) = true) :
    ∀ (fuel : Nat) (q : List (Var × Var)) (d : Doms) (evs : List Ev),
      evs.all P = true → ((ac3Loop c fuel q d evs).2.2).all P = true := by
  intro fuel
  induction fuel with
  | zero => intro q d evs h; simpa [ac3Loop] using h
  | succ fuel ih =>
    intro q d evs h
    match q with
    | [] => simpa [ac3Loop] using h
    | (xi, xj) :: q' =>
      simp only [ac3Loop]
      rcases hrev : reviseAllDiff xi xj d with ⟨d1, removed⟩
      by_cases hre : removed.isEmpty = true
      · simp only [hre, if_pos]
        exact ih _ _ _ h
      · simp only [hre, if_neg, if_false, Bool.false_eq_true, not_false_eq_true]
        have hext : (evs ++ [Ev.pruneEv xi (sortNat removed)]).all P = true := by
          simp [List.all_append, h, hP]
        by_cases hemp : ((alookup d1 xi).getD []).isEmpty = true
        · simpa [hemp] using hext
        · simp only [hemp, if_neg, if_false, Bool.false_eq_true, not_false_eq_true]
          exact ih _ _ _ hext

theorem emitPruneEvents_all (d : Doms) (P : Ev → Bool)
    (hP : ∀ v r, P (Ev.pruneEv v r) = true) :
    ∀ (rm : List (Var × List Nat)) (evs : List Ev), evs.all P = true →
      ((emitPruneEvents d rm evs).2).all P = true := by
  intro rm
  induction rm with
  | nil => intro evs h; simpa [emitPruneEvents] using h
  | cons vr rest ih =>
    intro evs h
    obtain ⟨v, removed⟩ := vr
    simp only [emitPruneEvents]
    by_cases hre : removed.isEmpty = true
    · simp only [hre, if_pos]
      exact ih _ h
    · simp only [hre, if_neg, if_false, Bool.false_eq_true, not_false_eq_true]
      have hext : (evs ++ [Ev.pruneEv v (sortNat removed)]).all P = true := by
        simp [List.all_append, h, hP]
      by_cases hemp : ((alookup d v).getD []).isEmpty = true
      · simpa [hemp] using hext
      · simp only [hemp, if_neg, if_false, Bool.false_eq_true, not_false_eq_true]
        exact ih _ hext

theorem runAc3_all (c : Ctx) (P : Ev → Bool) (hP : ∀ v r, P (Ev.pruneEv v r) = true)
    (d : Doms) (a : Assign) : ((runAc3Propagation c d a).2.2).all P = true := by
  simp only [runAc3Propagation]
  rcases h1 : ac3Loop c c.ac3Fuel c.initQueue d [] with ⟨ok, d1, evs⟩
  have hevs : evs.all P = true := by
    have h2 := ac3Loop_all c P hP c.ac3Fuel c.initQueue d [] (by simp)
    rw [h1] at h2
    exact h2
  match ok with
  | false => simpa using hevs
  | true =>
    simp only
    rcases h3 : emitPruneEvents (pruneColumnwise c d1).1 (pruneColumnwise c d1).2 evs
      with ⟨ok2, evs2⟩
    have hevs2 : evs2.all P = true := by
      have h4 := emitPruneEvents_all (pruneColumnwise c d1).1 P hP (pruneColumnwise c d1).2
        evs hevs
      rw [h3] at h4
      exact h4
    match ok2 with
    | false => simpa using hevs2
    | true =>
      simp only
      by_cases h5 : carriesConsistentPartial c a (pruneColumnwise c d1).1 = true
      · simpa [h5] using hevs2
      · simpa [h5] using hevs2

theorem all_append_of (l1 l2 : List Ev) (P : Ev → Bool) (h1 : l1.all P = true)
    (h2 : l2.all P = true) : (l1 ++ l2).all P = true := by
  simp only [List.all_append, h1, h2, Bool.and_self]

theorem push_all_of (st : St) (e : Ev) (P : Ev → Bool) (h : st.trace.all P = true)
    (he : P e = true) : ((St.push st e).trace).all P = true := by
  simp [St.push, List.all_append, h, he]

theorem pushAll_all_of (st : St) (es : List Ev) (P : Ev → Bool) (h : st.trace.all P = true)
    (hes : es.all P = true) : ((St.pushAll st es).trace).all P = true := by
  simp [St.pushAll, List.all_append, h, hes]

theorem tryOne_all (c : Ctx) (P : Ev → Bool) (hs : searchEvOk P)
    (recur : Assign → Doms → St → BTRes)
    (hrec : ∀ a d st, st.trace.all P = true → ((recur a d st).1).trace.all P = true)
    (var : Var) (val : Nat) (a : Assign) (d : Doms) (st : St)
    (h : st.trace.all P = true) :
    ((tryOne c recur var val a d st).1).trace.all P = true := by
  obtain ⟨h1, h2, h3, h4, h5, h6⟩ := hs
  simp only [tryOne]
  by_cases hskip : (c.isLetterVar var && !(allDifferentConsistent c var val a)) = true
  · simpa [hskip] using h
  · simp only [hskip, if_neg, if_false, Bool.false_eq_true, not_false_eq_true]
    have hst1 : ((st.push (Ev.assignEv var val)).trace).all P = true :=
      push_all_of st _ P h (h3 var val)
    by_cases hac : c.useAc3 = true
    · simp only [hac, if_pos]
      rcases hrun : runAc3Propagation c
          (if c.isLetterVar var = true then
            forwardCheck c var val (aset a var val) d else d) (aset a var val)
        with ⟨ok, dp, evs⟩
      have hevs : evs.all P = true := by
        have := runAc3_all c P h4 (if c.isLetterVar var = true then
            forwardCheck c var val (aset a var val) d else d) (aset a var val)
        rw [hrun] at this
        exact this
      have hst2 : (((st.push (Ev.assignEv var val)).pushAll evs).trace).all P = true :=
        pushAll_all_of _ evs P hst1 hevs
      match ok with
      | true =>
        simp only [if_pos]
        rcases hr : recur (aset a var val) dp ((st.push (Ev.assignEv var val)).pushAll evs)
          with ⟨st3, a3, d3, sol3⟩
        have hst3 : st3.trace.all P = true := by
          have := hrec (aset a var val) dp ((st.push (Ev.assignEv var val)).pushAll evs) hst2
          rw [hr] at this
          exact this
        match sol3 with
        | some sol =>
          by_cases hemp : sol.isEmpty = true
          · simp only [hemp, if_pos]
            exact push_all_of st3 _ P hst3 (h5 var)
          · simpa [hemp] using hst3
        | none => exact push_all_of st3 _ P hst3 (h5 var)
      | false =>
        simp only
        exact push_all_of _ _ P hst2 (h5 var)
    · simp only [hac, if_neg, if_false, Bool.false_eq_true, not_false_eq_true]
      by_cases hcst : carriesConsistentPartial c (aset a var val)
          (if c.isLetterVar var = true then
            forwardCheck c var val (aset a var val) d else d) = true
      · simp only [hcst, if_pos]
        rcases hr : recur (aset a var val)
            (if c.isLetterVar var = true then
              forwardCheck c var val (aset a var val) d else d)
            (st.push (Ev.assignEv var val)) with ⟨st3, a3, d3, sol3⟩
        have hst3 : st3.trace.all P = true := by
          have := hrec (aset a var val)
            (if c.isLetterVar var = true then
              forwardCheck c var val (aset a var val) d else d)
            (st.push (Ev.assignEv var val)) hst1
          rw [hr] at this
          exact this
        match sol3 with
        | some sol =>
          by_cases hemp : sol.isEmpty = true
          · simp only [hemp, if_pos]
            exact push_all_of st3 _ P hst3 (h5 var)
          · simpa [hemp] using hst3
        | none => exact push_all_of st3 _ P hst3 (h5 var)
      · simp only [hcst, if_neg, if_false, Bool.false_eq_true, not_false_eq_true]
        exact push_all_of _ _ P hst1 (h5 var)

theorem tryVals_all (c : Ctx) (P : Ev → Bool) (hs : searchEvOk P)
    (recur : Assign → Doms → St → BTRes)
    (hrec : ∀ a d st, st.trace.all P = true → ((recur a d st).1).trace.all P = true)
    (var : Var) :
    ∀ (vals : List Nat) (a : Assign) (d : Doms) (st : St),
      st.trace.all P = true → ((tryVals c recur var vals a d st).1).trace.all P = true := by
  intro vals
  induction vals with
  | nil => intro a d st h; simpa [tryVals] using h
  | cons val rest ih =>
    intro a d st h
    simp only [tryVals]
    rcases h1 : tryOne c recur var val a d st with ⟨st1, a1, d1, sol1⟩
    have hst1 : st1.trace.all P = true := by
      have := tryOne_all c P hs recur hrec var val a d st h
      rw [h1] at this
      exact this
    match sol1 with
    | some sol => simpa using hst1
    | none => exact ih _ _ _ hst1

theorem backtrack_all (c : Ctx) (P : Ev → Bool) (hs : searchEvOk P) :
    ∀ (fuel : Nat) (a : Assign) (d : Doms) (st : St),
      st.trace.all P = true → ((backtrack c fuel a d st).1).trace.all P = true := by
  intro fuel
  induction fuel with
  | zero => intro a d st h; simpa [backtrack] using h
  | succ fuel ih =>
    intro a d st h
    obtain ⟨h1, h2, h3, h4, h5, h6⟩ := hs
    have hst2 : ((((st.incSteps).push (Ev.curAssign a)).push (Ev.curDomains d)).trace).all P
        = true := by
      simp [St.push, St.incSteps, List.all_append, h, h1, h2]
    simp only [backtrack]
    by_cases hc : a.length = c.variables.length
    · simp only [hc, if_pos]
      by_cases hcar : carriesConsistentPartial c a d = true
      · simp only [hcar, if_pos]
        by_cases hlet : lettersAllAssigned c a = true
        · simp only [hlet, if_pos]
          by_cases hev : evaluateFullAssignment c (letterMapOf c a) = true
          · simpa [hev, St.push, List.all_append, h6] using hst2
          · simpa [hev] using hst2
        · simpa [hlet] using hst2
      · simpa [hcar] using hst2
    · simp only [hc, if_neg, if_false]
      match selectUnassignedVar c a d with
      | none => simpa using hst2
      | some var =>
        simp only
        exact tryVals_all c P ⟨h1, h2, h3, h4, h5, h6⟩ (backtrack c fuel) (fun a d st => ih a d st)
          var _ a d _ hst2

/-
C6: the terminal trace shape.
-/

/-- The terminal event pair appended by the search phase. -/
theorem searchPhase_shape (c : Ctx) (a0 : Assign) (d1 : Doms) (tr : List Ev)
    (P : Ev → Bool) (hs : searchEvOk P) (hend : ∀ r rs n, P (Ev.endEv r (some rs) (some n)) = true)
    (htr : tr.all P = true) :
    ∃ pre res rs steps note,
      (searchPhase c a0 d1 tr).trace
        = pre ++ [Ev.endEv res (some rs) (some steps), Ev.doneEv note]
      ∧ pre.all P = true
      ∧ (rs = reasonNoSolution ∨ rs = reasonSolved) := by
  simp only [searchPhase]
  rcases hbt : backtrack c (c.variables.length + 1) a0 (snapshotDomains d1)
      { trace := tr, steps := 0 } with ⟨st, af, df, sol⟩
  have hst : st.trace.all P = true := by
    have := backtrack_all c P hs (c.variables.length + 1) a0 (snapshotDomains d1)
      { trace := tr, steps := 0 } htr
    rw [hbt] at this
    exact this
  match sol with
  | none =>
    exact ⟨st.trace, none, reasonNoSolution, st.steps, doneNote, rfl, hst, Or.inl rfl⟩
  | some m =>
    exact ⟨st.trace, some m, reasonSolved, st.steps, doneNote, rfl, hst, Or.inr rfl⟩

/-- C6: in the trace of every completed solve invocation there is exactly one
SOLVER_DONE event, it is the last event, and it is immediately preceded by an
END event; stated as: the trace splits as a prefix free of SOLVER_DONE
followed by an END event and the single final SOLVER_DONE event. -/
theorem c6_solver_done (w : List (List Char)) (r : List Char)
    (p : Option (List (Char × Nat))) (b : Bool) :
    ∃ pre res reason steps note,
      solveTrace w r p b = pre ++ [Ev.endEv res reason steps, Ev.doneEv note]
      ∧ pre.all (fun e => !(Ev.isDone e)) = true := by
  have hs : searchEvOk (fun e => !(Ev.isDone e)) := by
    refine ⟨?_, ?_, ?_, ?_, ?_, ?_⟩ <;> intros <;> rfl
  simp only [solveTrace, solveCryptarithm]
  rcases happ : applyPreset (normalizePreset (p.getD []))
      [] (mkCtx w r b).initialDomains with _ | ⟨a0, d1⟩
  · refine ⟨[Ev.start (mkCtx w r b).words (mkCtx w r b).result b], none,
      some reasonPreset, none, doneNote, by simp, by simp [Ev.isDone]⟩
  · simp only
    by_cases hac : (mkCtx w r b).useAc3 = true
    · simp only [hac, if_pos]
      rcases hrun : runAc3Propagation (mkCtx w r b) d1 a0 with ⟨ok, d2, evs⟩
      have hevs : evs.all (fun e => !(Ev.isDone e)) = true := by
        have := runAc3_all (mkCtx w r b) (fun e => !(Ev.isDone e)) (fun v r => rfl) d1 a0
        rw [hrun] at this
        exact this
      match ok with
      | false =>
        refine ⟨[Ev.start (mkCtx w r b).words (mkCtx w r b).result b,
          Ev.curAssign a0, Ev.curDomains d1] ++ evs, none, some reasonAc3Start, none,
          doneNote, by simp, ?_⟩
        exact all_append_of _ _ _ (by rfl) hevs
      | true =>
        simp only
        obtain ⟨pre, res, rs, steps, note, heq, hpre, _⟩ :=
          searchPhase_shape (mkCtx w r b) a0 d2
            ([Ev.start (mkCtx w r b).words (mkCtx w r b).result b,
              Ev.curAssign a0, Ev.curDomains d1] ++ evs)
            (fun e => !(Ev.isDone e)) hs (fun _ _ _ => rfl)
            (all_append_of _ _ _ (by rfl) hevs)
        exact ⟨pre, res, some rs, some steps, note, heq, hpre⟩
    · simp only [hac, if_neg, if_false, Bool.false_eq_true, not_false_eq_true]
      obtain ⟨pre, res, rs, steps, note, heq, hpre, _⟩ :=
        searchPhase_shape (mkCtx w r b) a0 d1
          [Ev.start (mkCtx w r b).words (mkCtx w r b).result b,
            Ev.curAssign a0, Ev.curDomains d1]
          (fun e => !(Ev.isDone e)) hs (fun _ _ _ => rfl)
          (by simp [Ev.isDone])
      exact ⟨pre, res, some rs, some steps, note, heq, hpre⟩

/-
C7 amended: END field discipline.
-/

/-- C7 amended: every END event carries a reason except the in-search success
END, which carries a result and no steps; and the terminal END immediately
before SOLVER_DONE always carries a reason, carrying the steps count exactly
when it reports the outcome of a completed search (no-solution or solution
found), while the inconsistent-preset and failed-initial-propagation ENDs
carry no steps. -/
theorem c7_amended (w : List (List Char)) (r : List Char)
    (p : Option (List (Char × Nat))) (b : Bool) :
    (solveTrace w r p b).all endFieldsOk = true
    ∧ ∃ pre res rs steps note,
        solveTrace w r p b = pre ++ [Ev.endEv res (some rs) steps, Ev.doneEv note]
        ∧ (steps.isSome = true ↔ (rs = reasonNoSolution ∨ rs = reasonSolved)) := by
  have hs : searchEvOk endFieldsOk := by
    refine ⟨?_, ?_, ?_, ?_, ?_, ?_⟩ <;> intros <;> rfl
  constructor
  · simp only [solveTrace, solveCryptarithm]
    rcases happ : applyPreset (normalizePreset (p.getD []))
        [] (mkCtx w r b).initialDomains with _ | ⟨a0, d1⟩
    · simp [endFieldsOk]
    · simp only
      by_cases hac : (mkCtx w r b).useAc3 = true
      · simp only [hac, if_pos]
        rcases hrun : runAc3Propagation (mkCtx w r b) d1 a0 with ⟨ok, d2, evs⟩
        have hevs : evs.all endFieldsOk = true := by
          have := runAc3_all (mkCtx w r b) endFieldsOk (fun v r => rfl) d1 a0
          rw [hrun] at this
          exact this
        match ok with
        | false =>
          simp only
          exact all_append_of _ _ _ (all_append_of _ _ _ (by rfl) hevs) (by rfl)
        | true =>
          simp only [searchPhase]
          rcases hbt : backtrack (mkCtx w r b) ((mkCtx w r b).variables.length + 1) a0
              (snapshotDomains d2)
              { trace := [Ev.start (mkCtx w r b).words (mkCtx w r b).result b]
                  ++ [Ev.curAssign a0, Ev.curDomains d1] ++ evs, steps := 0 }
            with ⟨st, af, df, sol⟩
          have hst : st.trace.all endFieldsOk = true := by
            have := backtrack_all (mkCtx w r b) endFieldsOk hs
              ((mkCtx w r b).variables.length + 1) a0 (snapshotDomains d2)
              { trace := [Ev.start (mkCtx w r b).words (mkCtx w r b).result b]
                  ++ [Ev.curAssign a0, Ev.curDomains d1] ++ evs, steps := 0 }
              (all_append_of _ _ _ (by rfl) hevs)
            rw [hbt] at this
            exact this
          match sol with
          | none =>
            refine all_append_of _ _ _ hst ?_
            rfl
          | some m =>
            refine all_append_of _ _ _ hst ?_
            rfl
      · simp only [hac, if_neg, if_false, Bool.false_eq_true, not_false_eq_true,
          searchPhase]
        rcases hbt : backtrack (mkCtx w r b) ((mkCtx w r b).variables.length + 1) a0
            (snapshotDomains d1)
            { trace := [Ev.start (mkCtx w r b).words (mkCtx w r b).result b]
                ++ [Ev.curAssign a0, Ev.curDomains d1], steps := 0 }
          with ⟨st, af, df, sol⟩
        have hst : st.trace.all endFieldsOk = true := by
          have := backtrack_all (mkCtx w r b) endFieldsOk hs
            ((mkCtx w r b).variables.length + 1) a0 (snapshotDomains d1)
            { trace := [Ev.start (mkCtx w r b).words (mkCtx w r b).result b]
                ++ [Ev.curAssign a0, Ev.curDomains d1], steps := 0 }
            (by rfl)
          rw [hbt] at this
          exact this
        match sol with
        | none =>
          refine all_append_of _ _ _ hst ?_
          rfl
        | some m =>
          refine all_append_of _ _ _ hst ?_
          rfl
  · simp only [solveTrace, solveCryptarithm]
    rcases happ : applyPreset (normalizePreset (p.getD []))
        [] (mkCtx w r b).initialDomains with _ | ⟨a0, d1⟩
    · refine ⟨[Ev.start (mkCtx w r b).words (mkCtx w r b).result b], none,
        reasonPreset, none, doneNote, by simp, ?_⟩
      simp only [Option.isSome_none, Bool.false_eq_true, false_iff]
      rintro (h | h) <;> exact absurd h (by decide)
    · simp only
      by_cases hac : (mkCtx w r b).useAc3 = true
      · simp only [hac, if_pos]
        rcases hrun : runAc3Propagation (mkCtx w r b) d1 a0 with ⟨ok, d2, evs⟩
        match ok with
        | false =>
          refine ⟨[Ev.start (mkCtx w r b).words (mkCtx w r b).result b,
            Ev.curAssign a0, Ev.curDomains d1] ++ evs, none, reasonAc3Start, none,
            doneNote, by simp, ?_⟩
          simp only [Option.isSome_none, Bool.false_eq_true, false_iff]
          rintro (h | h) <;> exact absurd h (by decide)
        | true =>
          simp only
          obtain ⟨pre, res, rs, steps, note, heq, _, hrs⟩ :=
            searchPhase_shape (mkCtx w r b) a0 d2
              ([Ev.start (mkCtx w r b).words (mkCtx w r b).result b,
                Ev.curAssign a0, Ev.curDomains d1] ++ evs)
              endFieldsOk hs (fun _ _ _ => rfl)
              (by
                have hplist := runAc3_all (mkCtx w r b) endFieldsOk (fun v r => rfl) d1 a0
                rw [hrun] at hplist
                exact all_append_of _ _ _ (by rfl) hplist)
          exact ⟨pre, res, rs, some steps, note, heq, by simp [hrs]⟩
      · simp only [hac, if_neg, if_false, Bool.false_eq_true, not_false_eq_true]
        obtain ⟨pre, res, rs, steps, note, heq, _, hrs⟩ :=
          searchPhase_shape (mkCtx w r b) a0 d1
            [Ev.start (mkCtx w r b).words (mkCtx w r b).result b,
              Ev.curAssign a0, Ev.curDomains d1]
            endFieldsOk hs (fun _ _ _ => rfl) (by simp [endFieldsOk])
        exact ⟨pre, res, rs, some steps, note, heq, by simp [hrs]⟩

/-
C5: inconsistent presets are rejected before any search node.
-/

/-- C5: if the normalized preset names a letter that does not occur in the
puzzle, or a value outside that letter's computed domain, then the solver
returns no solution, the trace contains no ASSIGN event, the node counter
stays at zero, and the trace ends with the inconsistent-preset END followed
by SOLVER_DONE. -/
theorem c5_inconsistent_preset (w : List (List Char)) (r : List Char)
    (p : Option (List (Char × Nat))) (b : Bool) (k : Char) (v : Nat)
    (hmem : (k, v) ∈ normalizePreset (p.getD []))
    (hbad : k ∉ (mkCtx w r b).letters
      ∨ v ∉ (alookup (mkCtx w r b).initialDomains (Var.letter k)).getD []) :
    solveSol w r p b = none
    ∧ (solveTrace w r p b).all (fun e => !(Ev.isAssign e)) = true
    ∧ solveSteps w r p b = 0
    ∧ ∃ pre note, solveTrace w r p b
        = pre ++ [Ev.endEv none (some reasonPreset) none, Ev.doneEv note] := by
  have hnone : applyPreset (normalizePreset (p.getD []))
      [] (mkCtx w r b).initialDomains = none := by
    refine applyPreset_bad _ _ _ (normalizePreset_keys_nodup _) ⟨(k, v), hmem, ?_⟩
    rcases hbad with h | h
    · have hlk : alookup (mkCtx w r b).initialDomains (Var.letter k) = none := by
        rw [initialDomains_letter]
        exact if_neg h
      simp [hlk]
    · cases hsome : alookup (mkCtx w r b).initialDomains (Var.letter k) with
      | none => simp [hsome]
      | some dom =>
        rw [hsome] at h
        simp only [Option.getD_some] at h
        simp only [hsome, Option.isSome_some, Bool.true_and]
        simpa using h
  simp only [solveSol, solveTrace, solveSteps, solveCryptarithm, hnone]
  refine ⟨by simp, by simp [Ev.isAssign], by simp,
    ⟨[Ev.start (mkCtx w r b).words (mkCtx w r b).result b], doneNote, by simp⟩⟩

/-
Auxiliary lemmas for the soundness development.
-/

theorem snapshotDomains_eq (d : Doms) : snapshotDomains d = d := by
  simp [snapshotDomains]

theorem alookup_map_fst {α β γ : Type} [DecidableEq α] (f : α → γ) :
    ∀ (l : List (α × β)) (k : α),
      alookup (l.map (fun kv => (kv.1, f kv.1))) k = (alookup l k).map (fun _ => f k) := by
  intro l
  induction l with
  | nil => intro k; simp [alookup]
  | cons kv t ih =>
    intro k
    obtain ⟨k0, v0⟩ := kv
    by_cases h : k0 = k
    · subst h; simp [alookup]
    · simp [alookup, h, ih]

theorem alookup_restoreDoms (cur snap : Doms) (k : Var) :
    alookup (restoreDoms cur snap) k = (alookup cur k).map (fun _ => (alookup snap k).getD []) := by
  unfold restoreDoms
  exact alookup_map_fst (fun k => (alookup snap k).getD []) cur k

theorem aerase_sublist {α β : Type} [DecidableEq α] (m : List (α × β)) (k : α) :
    (aerase m k).Sublist m := by
  induction m with
  | nil => simp [aerase]
  | cons kv t ih =>
    obtain ⟨k0, v0⟩ := kv
    by_cases h : k0 = k
    · simp only [aerase, h, if_pos]
      exact (List.sublist_cons_self _ _)
    · simp only [aerase, h, if_neg, if_false, Bool.false_eq_true, not_false_eq_true]
      exact ih.cons₂ _

theorem aerase_keys_nodup {α β : Type} [DecidableEq α] (m : List (α × β)) (k : α)
    (h : (m.map Prod.fst).Nodup) : ((aerase m k).map Prod.fst).Nodup :=
  ((aerase_sublist m k).map Prod.fst).nodup h

theorem alookup_aerase_ne {α β : Type} [DecidableEq α] (m : List (α × β)) (k k' : α)
    (h : k' ≠ k) : alookup (aerase m k) k' = alookup m k' := by
  have hkk : ¬ (k = k') := fun he => h he.symm
  induction m with
  | nil => simp [aerase]
  | cons kv t ih =>
    obtain ⟨k0, v0⟩ := kv
    by_cases h0 : k0 = k
    · subst h0
      simp [aerase, alookup, hkk, fun hx : k0 = k' => hkk hx]
    · simp [aerase, alookup, h0, ih]

theorem foldl_choice_mem {α : Type} (f : α → α → Bool) :
    ∀ (us : List α) (u : α), (us.foldl (fun best v => if f v best then v else best) u) ∈ u :: us := by
  intro us
  induction us with
  | nil => intro u; simp
  | cons v t ih =>
    intro u
    simp only [List.foldl_cons]
    by_cases h : f v u = true
    · simp only [h, if_pos]
      have := ih v
      rcases List.mem_cons.mp this with h1 | h1
      · rw [h1]; simp
      · simp [h1]
    · simp only [h, if_neg, if_false, Bool.false_eq_true, not_false_eq_true]
      have := ih u
      rcases List.mem_cons.mp this with h1 | h1
      · rw [h1]; simp
      · simp [h1]

theorem selectUnassignedVar_mem (c : Ctx) (a : Assign) (d : Doms) (var : Var)
    (h : selectUnassignedVar c a d = some var) :
    var ∈ c.variables ∧ alookup a var = none := by
  unfold selectUnassignedVar at h
  rcases hf : (c.variables).filter (fun v => (alookup a v).isNone) with _ | ⟨u, us⟩
  · rw [hf] at h; exact absurd h (by simp)
  · rw [hf] at h
    simp only [Option.some_inj] at h
    have hmem : var ∈ u :: us := by
      rw [← h]
      exact foldl_choice_mem _ us u
    have : var ∈ (c.variables).filter (fun v => (alookup a v).isNone) := by
      rw [hf]; exact hmem
    have := List.mem_filter.mp this
    exact ⟨this.1, by simpa using this.2⟩

theorem variables_letter_iff (c : Ctx) (ch : Char) :
    Var.letter ch ∈ c.variables ↔ ch ∈ c.letters := by
  unfold Ctx.variables Ctx.carryVars
  simp only [List.mem_append, List.mem_map]
  constructor
  · rintro (⟨x, hx, he⟩ | ⟨i, hi, he⟩)
    · obtain rfl : x = ch := by injection he
      exact hx
    · exact absurd he (by simp)
  · intro h
    exact Or.inl ⟨ch, h, rfl⟩

theorem neighbors_mem (c : Ctx) (ch y : Char) (h : ch ∈ c.letters) :
    y ∈ c.neighbors (Var.letter ch) ↔ (y ∈ c.letters ∧ y ≠ ch) := by
  simp [Ctx.neighbors, h, List.mem_filter]

theorem lettersOf_mem_aux (x : Char) :
    ∀ (w : List Char) (acc : List Char),
      x ∈ w.foldl (fun acc ch => if ch ∈ acc then acc else acc ++ [ch]) acc
        ↔ x ∈ acc ∨ x ∈ w := by
  intro w
  induction w with
  | nil => intro acc; simp
  | cons ch t ih =>
    intro acc
    simp only [List.foldl_cons]
    by_cases h : ch ∈ acc
    · rw [if_pos h, ih]
      constructor
      · rintro (hx | hx)
        · exact Or.inl hx
        · exact Or.inr (List.mem_cons_of_mem _ hx)
      · rintro (hx | hx)
        · exact Or.inl hx
        · rcases List.mem_cons.mp hx with rfl | hx
          · exact Or.inl h
          · exact Or.inr hx
    · rw [if_neg h, ih]
      simp only [List.mem_append, List.mem_singleton, List.mem_cons]
      tauto

theorem lettersOf_mem (x : Char) :
    ∀ (ws : List (List Char)), x ∈ lettersOf ws ↔ ∃ w ∈ ws, x ∈ w := by
  unfold lettersOf
  suffices h : ∀ (ws : List (List Char)) (acc : List Char),
      x ∈ ws.foldl (fun acc w => w.foldl (fun acc ch => if ch ∈ acc then acc else acc ++ [ch]) acc) acc
        ↔ x ∈ acc ∨ ∃ w ∈ ws, x ∈ w by
    intro ws
    rw [h ws []]
    simp
  intro ws
  induction ws with
  | nil => intro acc; simp
  | cons w t ih =>
    intro acc
    simp only [List.foldl_cons]
    rw [ih, lettersOf_mem_aux]
    simp only [List.mem_cons]
    constructor
    · rintro ((hx | hx) | ⟨w', hw', hx⟩)
      · exact Or.inl hx
      · exact Or.inr ⟨w, Or.inl rfl, hx⟩
      · exact Or.inr ⟨w', Or.inr hw', hx⟩
    · rintro (hx | ⟨w', (rfl | hw'), hx⟩)
      · exact Or.inl (Or.inl hx)
      · exact Or.inl (Or.inr hx)
      · exact Or.inr ⟨w', hw', hx⟩

theorem lettersOf_nodup_aux :
    ∀ (w : List Char) (acc : List Char), acc.Nodup →
      (w.foldl (fun acc ch => if ch ∈ acc then acc else acc ++ [ch]) acc).Nodup := by
  intro w
  induction w with
  | nil => intro acc h; simpa using h
  | cons ch t ih =>
    intro acc h
    simp only [List.foldl_cons]
    by_cases hm : ch ∈ acc
    · rw [if_pos hm]; exact ih acc h
    · rw [if_neg hm]
      refine ih _ ?_
      simp [List.nodup_append, h, hm]

theorem lettersOf_nodup (ws : List (List Char)) : (lettersOf ws).Nodup := by
  unfold lettersOf
  suffices h : ∀ (ws : List (List Char)) (acc : List Char), acc.Nodup →
      (ws.foldl (fun acc w => w.foldl (fun acc ch => if ch ∈ acc then acc else acc ++ [ch]) acc) acc).Nodup by
    exact h ws [] (by simp)
  intro ws
  induction ws with
  | nil => intro acc h; simpa using h
  | cons w t ih =>
    intro acc h
    simp only [List.foldl_cons]
    exact ih _ (lettersOf_nodup_aux w acc h)

theorem decimalLen_le9 (d : Nat) (h : d ≤ 9) : decimalLen d = 1 := by
  unfold decimalLen
  match d with
  | 0 => rfl
  | Nat.succ n =>
    unfold decimalLenAux
    rw [if_pos (by omega)]

theorem alookup_not_mem_keys {α β : Type} [DecidableEq α] (m : List (α × β)) (k : α)
    (h : k ∉ m.map Prod.fst) : alookup m k = none := by
  induction m with
  | nil => rfl
  | cons kv t ih =>
    obtain ⟨k0, v0⟩ := kv
    simp only [List.map_cons, List.mem_cons] at h
    push_neg at h
    simp only [alookup]
    rw [if_neg (fun he => h.1 he.symm)]
    exact ih h.2

theorem alookup_aerase_self {α β : Type} [DecidableEq α] (m : List (α × β)) (k : α)
    (h : (m.map Prod.fst).Nodup) : alookup (aerase m k) k = none := by
  induction m with
  | nil => rfl
  | cons kv t ih =>
    obtain ⟨k0, v0⟩ := kv
    simp only [List.map_cons, List.nodup_cons] at h
    by_cases h0 : k0 = k
    · subst h0
      simp only [aerase, if_pos rfl]
      exact alookup_not_mem_keys t k0 h.1
    · simp only [aerase, h0, if_neg, if_false, Bool.false_eq_true, not_false_eq_true, alookup]
      exact ih h.2

/-
Domain inclusion lemmas: every domain-map operation of the solver only
shrinks letter domains (and the restore returns to the snapshot values).
-/

theorem domsSub_refl (d : Doms) : DomsSub d d := fun _ _ h => h

theorem domsSub_trans {d1 d2 d3 : Doms} (h1 : DomsSub d1 d2) (h2 : DomsSub d2 d3) :
    DomsSub d1 d3 := fun v x hx => h2 v x (h1 v x hx)

theorem domsSub_aset (d : Doms) (k : Var) (vs : List Nat)
    (hvs : ∀ x ∈ vs, x ∈ (alookup d k).getD []) : DomsSub (aset d k vs) d := by
  intro v x hx
  by_cases h : v = k
  · subst h
    rw [alookup_aset_self] at hx
    exact hvs x (by simpa using hx)
  · rwa [alookup_aset_ne _ _ _ _ h] at hx

theorem forwardCheck_sub (c : Ctx) (var : Var) (val : Nat) (a : Assign) (d : Doms) :
    DomsSub (forwardCheck c var val a d) d := by
  unfold forwardCheck
  generalize (c.neighbors var) = ns
  induction ns generalizing d with
  | nil => exact domsSub_refl d
  | cons n t ih =>
    simp only [List.foldl_cons]
    by_cases hg : ((alookup a (Var.letter n)).isNone
        && ((alookup d (Var.letter n)).getD []).contains val) = true
    · rw [if_pos hg]
      refine domsSub_trans (ih _) (domsSub_aset _ _ _ ?_)
      intro x hx
      exact (List.mem_filter.mp hx).1
    · rw [if_neg hg]
      exact ih d

theorem reviseAllDiff_sub (xi xj : Var) (d : Doms) :
    DomsSub (reviseAllDiff xi xj d).1 d := by
  simp only [reviseAllDiff]
  split
  · exact domsSub_refl d
  · refine domsSub_aset _ _ _ ?_
    intro x hx
    exact (List.mem_filter.mp hx).1

theorem ac3Loop_sub (c : Ctx) :
    ∀ (fuel : Nat) (q : List (Var × Var)) (d : Doms) (evs : List Ev),
      DomsSub (ac3Loop c fuel q d evs).2.1 d := by
  intro fuel
  induction fuel with
  | zero => intro q d evs; exact domsSub_refl d
  | succ fuel ih =>
    intro q d evs
    match q with
    | [] => exact domsSub_refl d
    | (xi, xj) :: q2 =>
      have hsub := reviseAllDiff_sub xi xj d
      simp only [ac3Loop]
      split
      · exact domsSub_trans (ih _ _ _) hsub
      · split
        · exact hsub
        · exact domsSub_trans (ih _ _ _) hsub

theorem pruneOneColumn_sub (c : Ctx) (col : Nat) (st : Doms × List (Var × List Nat)) :
    DomsSub (pruneOneColumn c col st).1 st.1 := by
  have main : ∀ (ks2 : List Var) (sup : List (Var × List Nat)) (st2 : Doms × List (Var × List Nat)),
      DomsSub (ks2.foldl (fun st v =>
        let dv := (alookup st.1 v).getD []
        let sup2 := (alookup sup v).getD []
        let toRemove := dv.filter (fun x => !(sup2.contains x))
        if toRemove.isEmpty then st
        else (aset st.1 v (dv.filter (fun x => sup2.contains x)), rmUpdate st.2 v toRemove)) st2).1 st2.1 := by
    intro ks2
    induction ks2 with
    | nil => intro sup st2; exact domsSub_refl _
    | cons v t ih =>
      intro sup st2
      rw [List.foldl_cons]
      refine domsSub_trans (ih sup _) ?_
      simp only []
      split
      · exact domsSub_refl _
      · exact domsSub_aset _ _ _ (fun x hx => (List.mem_filter.mp hx).1)
  exact main (c.colInvolved col) _ st

theorem pruneColumnwise_sub (c : Ctx) (d : Doms) :
    DomsSub (pruneColumnwise c d).1 d := by
  have main : ∀ (cols : List Nat) (st : Doms × List (Var × List Nat)),
      DomsSub ((cols.foldl (fun st col => pruneOneColumn c col st) st)).1 st.1 := by
    intro cols
    induction cols with
    | nil => intro st; exact domsSub_refl _
    | cons col t ih =>
      intro st
      rw [List.foldl_cons]
      exact domsSub_trans (ih _) (pruneOneColumn_sub c col st)
  have hmain := main (List.range c.maxLen) (d, [])
  simp only [pruneColumnwise]
  split
  · split
    · refine domsSub_trans (domsSub_aset _ _ _ ?_) hmain
      intro x hx
      exact absurd hx (List.not_mem_nil x)
    · exact hmain
  · exact hmain

theorem runAc3_sub (c : Ctx) (d : Doms) (a : Assign) :
    DomsSub (runAc3Propagation c d a).2.1 d := by
  have h1 := ac3Loop_sub c c.ac3Fuel c.initQueue d []
  simp only [runAc3Propagation]
  split
  next d1 evs heq =>
    rw [heq] at h1
    exact h1
  next d1 evs heq =>
    rw [heq] at h1
    have h2 : DomsSub (pruneColumnwise c d1).1 d :=
      domsSub_trans (pruneColumnwise_sub c d1) h1
    split
    · exact h2
    · split
      · exact h2
      · exact h2

theorem restoreDoms_sub (cur snap : Doms) : DomsSub (restoreDoms cur snap) snap := by
  intro v x hx
  rw [alookup_restoreDoms] at hx
  cases h : alookup cur v with
  | none => rw [h] at hx; exact absurd hx (by simp)
  | some vs => rw [h] at hx; simpa using hx

/-
Preservation of the search invariant components.
-/

theorem dLe9_of_sub (c : Ctx) (dn d : Doms) (hsub : DomsSub dn d)
    (h : ∀ ch v, ch ∈ c.letters → v ∈ (alookup d (Var.letter ch)).getD [] → v ≤ 9) :
    ∀ ch v, ch ∈ c.letters → v ∈ (alookup dn (Var.letter ch)).getD [] → v ≤ 9 :=
  fun ch v hch hv => h ch v hch (hsub _ v hv)

theorem assignLe9_aset (c : Ctx) (a : Assign) (var : Var) (val : Nat)
    (h : ∀ ch v, ch ∈ c.letters → alookup a (Var.letter ch) = some v → v ≤ 9)
    (hval : ∀ ch, var = Var.letter ch → val ≤ 9) :
    ∀ ch v, ch ∈ c.letters → alookup (aset a var val) (Var.letter ch) = some v → v ≤ 9 := by
  intro ch v hch hv
  by_cases he : Var.letter ch = var
  · rw [← he] at hv
    rw [← he] at hval
    rw [alookup_aset_self] at hv
    obtain rfl : val = v := by injection hv
    exact hval ch rfl
  · rw [alookup_aset_ne _ _ _ _ he] at hv
    exact h ch v hch hv

theorem assignLe9_aerase (c : Ctx) (a : Assign) (k : Var)
    (hnd : (a.map Prod.fst).Nodup)
    (h : ∀ ch v, ch ∈ c.letters → alookup a (Var.letter ch) = some v → v ≤ 9) :
    ∀ ch v, ch ∈ c.letters → alookup (aerase a k) (Var.letter ch) = some v → v ≤ 9 := by
  intro ch v hch hv
  by_cases he : Var.letter ch = k
  · rw [he] at hv
    rw [alookup_aerase_self _ _ hnd] at hv
    exact absurd hv (by simp)
  · rw [alookup_aerase_ne _ _ _ he] at hv
    exact h ch v hch hv

theorem lettersDistinct_aset_letter (c : Ctx) (a : Assign) (ch : Char) (val : Nat)
    (hch : ch ∈ c.letters)
    (hpre : allDifferentConsistent c (Var.letter ch) val a = true)
    (hd : LettersDistinct c a) : LettersDistinct c (aset a (Var.letter ch) val) := by
  intro x y vx vy hx hy hxy hlx hly
  by_cases hxc : x = ch
  · subst hxc
    rw [alookup_aset_self] at hlx
    obtain rfl : val = vx := by injection hlx
    have hyne : Var.letter y ≠ Var.letter x := fun he => hxy (Var.letter.inj he).symm
    rw [alookup_aset_ne _ _ _ _ hyne] at hly
    have hymem : y ∈ c.neighbors (Var.letter x) :=
      (neighbors_mem c x y hch).mpr ⟨hy, fun he => hxy he.symm⟩
    have hall := (List.all_eq_true.mp hpre) y hymem
    intro he
    rw [hly, ← he] at hall
    simp at hall
  · have hxne : Var.letter x ≠ Var.letter ch := fun he => hxc (Var.letter.inj he)
    rw [alookup_aset_ne _ _ _ _ hxne] at hlx
    by_cases hyc : y = ch
    · subst hyc
      rw [alookup_aset_self] at hly
      obtain rfl : val = vy := by injection hly
      have hxmem : x ∈ c.neighbors (Var.letter y) := (neighbors_mem c y x hch).mpr ⟨hx, hxc⟩
      have hall := (List.all_eq_true.mp hpre) x hxmem
      intro he
      rw [hlx, he] at hall
      simp at hall
    · have hyne : Var.letter y ≠ Var.letter ch := fun he => hyc (Var.letter.inj he)
      rw [alookup_aset_ne _ _ _ _ hyne] at hly
      exact hd x y vx vy hx hy hxy hlx hly

theorem lettersDistinct_aset_carry (c : Ctx) (a : Assign) (i : Nat) (val : Nat)
    (hd : LettersDistinct c a) : LettersDistinct c (aset a (Var.carry i) val) := by
  intro x y vx vy hx hy hxy hlx hly
  have hxne : Var.letter x ≠ Var.carry i := fun he => Var.noConfusion he
  have hyne : Var.letter y ≠ Var.carry i := fun he => Var.noConfusion he
  rw [alookup_aset_ne _ _ _ _ hxne] at hlx
  rw [alookup_aset_ne _ _ _ _ hyne] at hly
  exact hd x y vx vy hx hy hxy hlx hly

theorem lettersDistinct_aerase (c : Ctx) (a : Assign) (k : Var)
    (hnd : (a.map Prod.fst).Nodup)
    (hd : LettersDistinct c a) : LettersDistinct c (aerase a k) := by
  intro x y vx vy hx hy hxy hlx hly
  by_cases hxk : Var.letter x = k
  · rw [hxk, alookup_aerase_self _ _ hnd] at hlx
    exact absurd hlx (by simp)
  · by_cases hyk : Var.letter y = k
    · rw [hyk, alookup_aerase_self _ _ hnd] at hly
      exact absurd hly (by simp)
    · rw [alookup_aerase_ne _ _ _ hxk] at hlx
      rw [alookup_aerase_ne _ _ _ hyk] at hly
      exact hd x y vx vy hx hy hxy hlx hly

/-- C5, witness: the preset Z=1 on the puzzle A = A names the unknown letter
Z and is rejected with no solution, no ASSIGN event, and zero steps. -/
theorem c5_inconsistent_preset_witness :
    ((('Z' : Char), (1 : Nat)) ∈ normalizePreset ((some [('Z', 1)]).getD []))
    ∧ ('Z' ∉ (mkCtx [['A']] ['A'] false).letters)
    ∧ solveSol [['A']] ['A'] (some [('Z', 1)]) false = none
    ∧ (solveTrace [['A']] ['A'] (some [('Z', 1)]) false).all (fun e => !(Ev.isAssign e)) = true
    ∧ solveSteps [['A']] ['A'] (some [('Z', 1)]) false = 0 := by
  have h := c5_inconsistent_preset [['A']] ['A'] (some [('Z', 1)]) false 'Z' 1
    (by decide) (Or.inl (by decide))
  exact ⟨by decide, by decide, h.1, h.2.1, h.2.2.1⟩

/-
C3: the all-different invariant on returned solutions.
The claim quantifies over every preset; it fails when the preset itself
assigns the same digit to two distinct letters and propagation is off.
-/

/-- C3 counterexample: with words AB, result AB and the preset A=1, B=1, the
solver with propagation disabled returns the mapping A=1, B=1, in which the
two distinct letters A and B carry the same digit. -/
theorem c3_counterexample :
    solveSol [['A','B']] ['A','B'] (some [('A',1),('B',1)]) false
      = some [('A', 1), ('B', 1)]
    ∧ ('A' : Char) ≠ 'B'
    ∧ ¬ (([('A',1),('B',1)] : List (Char × Nat)).map Prod.snd).Nodup := by
  refine ⟨by decide, by decide, by decide⟩

/-
C4: equivalence of the two propagation modes.
The same duplicate-valued preset separates the two modes.
-/

/-- C4 counterexample: on the fixed puzzle AB = AB with preset A=1, B=1, the
solver returns a solution with propagation disabled but no solution with
propagation enabled, so the solved-versus-unsatisfiable outcome differs
between the two modes. -/
theorem c4_counterexample :
    (solveSol [['A','B']] ['A','B'] (some [('A',1),('B',1)]) false).isSome = true
    ∧ (solveSol [['A','B']] ['A','B'] (some [('A',1),('B',1)]) true).isSome = false := by
  refine ⟨by decide, by decide⟩

/-
C7: the fields of END events.
-/

/-- C7 counterexample: the inconsistent-preset run emits an END event whose
reason is present but whose steps field is absent, so not every END event
carries all three schema fields. -/
theorem c7_counterexample :
    Ev.endEv none (some reasonPreset) none
      ∈ solveTrace [['A']] ['A'] (some [('Z', 1)]) false := by decide

/-
C8: the assigned-variable singleton-domain invariant.
-/

/-- C8 counterexample: in the search for A = A without propagation, right
after the carry variable C0 is assigned 0 the snapshot events show C0
assigned while its domain entry is still the two-element set containing 0
and 1, not the singleton of the assigned value. -/
theorem c8_counterexample :
    (solveTrace [['A']] ['A'] none false)[6]? = some (Ev.curAssign [(Var.carry 0, 0)])
    ∧ (solveTrace [['A']] ['A'] none false)[7]? =
        some (Ev.curDomains [(Var.letter 'A', [0,1,2,3,4,5,6,7,8,9]), (Var.carry 0, [0,1])])
    ∧ alookup [(Var.letter 'A', ([0,1,2,3,4,5,6,7,8,9] : List Nat)), (Var.carry 0, [0,1])]
        (Var.carry 0) ≠ some [0] := by
  refine ⟨by decide, by decide, by decide⟩

/-- Preset application preserves the invariant that every variable it has
assigned has the singleton domain of its value. -/
theorem applyPreset_domain_singleton :
    ∀ (entries : List (Char × Nat)) (a : Assign) (d : Doms) (a' : Assign) (d' : Doms),
      applyPreset entries a d = some (a', d') →
      (∀ k v, alookup a (Var.letter k) = some v → alookup d (Var.letter k) = some [v]) →
      ∀ k v, alookup a' (Var.letter k) = some v → alookup d' (Var.letter k) = some [v] := by
  intro entries
  induction entries with
  | nil =>
    intro a d a' d' h hinv
    simp [applyPreset] at h
    obtain ⟨rfl, rfl⟩ := h
    exact hinv
  | cons kv rest ih =>
    intro a d a' d' h hinv
    obtain ⟨k0, v0⟩ := kv
    simp only [applyPreset] at h
    by_cases hc : ((alookup d (Var.letter k0)).isSome
        && ((alookup d (Var.letter k0)).getD []).contains v0) = true
    · rw [if_pos hc] at h
      refine ih _ _ _ _ h ?_
      intro k v hv
      by_cases hk : k = k0
      · subst hk
        rw [alookup_aset_self] at hv
        obtain rfl : v0 = v := by injection hv
        exact alookup_aset_self _ _ _
      · have hne : Var.letter k ≠ Var.letter k0 := by
          intro he; exact hk (by injection he)
        rw [alookup_aset_ne _ _ _ _ hne] at hv
        rw [alookup_aset_ne _ _ _ _ hne]
        exact hinv k v hv
    · rw [if_neg hc] at h
      exact absurd h (by simp)

/-- C8 amended: the singleton-domain invariant holds for the variables the
preset assigns, at the moment the search starts: every preset-assigned
variable has the singleton domain of its value. (Variables assigned during
the search keep their unreduced domain entry; the consistency checks
substitute assigned values for domains instead, as the counterexample
shows.) -/
theorem c8_amended (w : List (List Char)) (r : List Char)
    (p : Option (List (Char × Nat))) (b : Bool) (a0 : Assign) (d1 : Doms)
    (h : applyPreset (normalizePreset (p.getD [])) []
        (mkCtx w r b).initialDomains = some (a0, d1)) :
    ∀ k v, alookup a0 (Var.letter k) = some v → alookup d1 (Var.letter k) = some [v] :=
  applyPreset_domain_singleton _ _ _ _ _ h
    (by intro k v hv; rw [alookup_nil] at hv; exact absurd hv (by simp))

/-- C8 amended, witness: the preset A=3 on the puzzle A = A is applied, and
the assigned letter A indeed ends with the singleton domain of 3. -/
theorem c8_amended_witness :
    applyPreset (normalizePreset ((some [('A', 3)]).getD [])) []
        (mkCtx [['A']] ['A'] false).initialDomains
      = some ([(Var.letter 'A', 3)], [(Var.letter 'A', [3]), (Var.carry 0, [0, 1])])
    ∧ alookup [(Var.letter 'A', ([3] : List Nat)), (Var.carry 0, [0, 1])]
        (Var.letter 'A') = some [3] := by
  constructor
  · decide
  · exact c8_amended [['A']] ['A'] (some [('A', 3)]) false [(Var.letter 'A', 3)]
      [(Var.letter 'A', [3]), (Var.carry 0, [0, 1])] (by decide) 'A' 3 (by decide)

/-
Soundness of the search: the invariant bundle is preserved by the preset
application and by every step of the backtracking search, and every emitted
solution is the solution map of a fully checked assignment.
-/

theorem alookup_mem {α β : Type} [DecidableEq α] :
    ∀ (m : List (α × β)) (k : α) (v : β), alookup m k = some v → (k, v) ∈ m := by
  intro m
  induction m with
  | nil => intro k v h; exact absurd h (by simp [alookup])
  | cons kv t ih =>
    intro k v h
    obtain ⟨k0, v0⟩ := kv
    simp only [alookup] at h
    by_cases h0 : k0 = k
    · rw [if_pos h0] at h
      obtain rfl : v0 = v := by injection h
      subst h0
      exact List.mem_cons_self _ _
    · rw [if_neg h0] at h
      exact List.mem_cons_of_mem _ (ih k v h)

theorem initialDomains_le9 (c : Ctx) :
    ∀ ch v, ch ∈ c.letters → v ∈ (alookup c.initialDomains (Var.letter ch)).getD [] → v ≤ 9 := by
  intro ch v hch hv
  rw [initialDomains_letter, if_pos hch] at hv
  by_cases hl : ch ∈ c.leadingLetters
  · rw [if_pos hl] at hv
    simp only [Option.getD_some, List.mem_map, List.mem_range] at hv
    obtain ⟨i, hi, rfl⟩ := hv
    omega
  · rw [if_neg hl] at hv
    simp only [Option.getD_some, List.mem_range] at hv
    omega

theorem initialDomains_keys (c : Ctx) :
    ∀ k, (alookup c.initialDomains (Var.letter k)).isSome = true → k ∈ c.letters := by
  intro k h
  rw [initialDomains_letter] at h
  by_cases hk : k ∈ c.letters
  · exact hk
  · rw [if_neg hk] at h
    exact absurd h (by simp)

theorem applyPreset_inv (c : Ctx) :
    ∀ (entries : List (Char × Nat)) (a : Assign) (d : Doms) (a2 : Assign) (d2 : Doms),
      applyPreset entries a d = some (a2, d2) →
      (a.map Prod.fst).Nodup →
      (∀ k, (alookup d (Var.letter k)).isSome = true → k ∈ c.letters) →
      (∀ ch v, ch ∈ c.letters → alookup a (Var.letter ch) = some v → v ≤ 9) →
      (∀ ch v, ch ∈ c.letters → v ∈ (alookup d (Var.letter ch)).getD [] → v ≤ 9) →
      ((a2.map Prod.fst).Nodup
        ∧ (∀ ch v, ch ∈ c.letters → alookup a2 (Var.letter ch) = some v → v ≤ 9)
        ∧ (∀ ch v, ch ∈ c.letters → v ∈ (alookup d2 (Var.letter ch)).getD [] → v ≤ 9)) := by
  intro entries
  induction entries with
  | nil =>
    intro a d a2 d2 h hnd hkeys ha9 hd9
    simp only [applyPreset, Option.some_inj, Prod.mk.injEq] at h
    obtain ⟨rfl, rfl⟩ := h
    exact ⟨hnd, ha9, hd9⟩
  | cons kv rest ih =>
    intro a d a2 d2 h hnd hkeys ha9 hd9
    obtain ⟨k, v⟩ := kv
    simp only [applyPreset] at h
    by_cases hg : ((alookup d (Var.letter k)).isSome
        && ((alookup d (Var.letter k)).getD []).contains v) = true
    · rw [if_pos hg] at h
      have hgg := hg
      rw [Bool.and_eq_true] at hgg
      have hg1 : (alookup d (Var.letter k)).isSome = true := hgg.1
      have hg2 : ((alookup d (Var.letter k)).getD []).contains v = true := hgg.2
      have hkmem : k ∈ c.letters := hkeys k hg1
      have hv9 : v ≤ 9 := hd9 k v hkmem (by simpa using hg2)
      refine ih _ _ _ _ h (aset_keys_nodup a (Var.letter k) v hnd) ?_ ?_ ?_
      · intro k2 hk2
        by_cases he : Var.letter k2 = Var.letter k
        · obtain rfl : k2 = k := Var.letter.inj he
          exact hkmem
        · rw [alookup_aset_ne _ _ _ _ he] at hk2
          exact hkeys k2 hk2
      · exact assignLe9_aset c a (Var.letter k) v ha9 (fun ch he => hv9)
      · refine dLe9_of_sub c _ d ?_ hd9
        refine domsSub_aset _ _ _ ?_
        intro x hx
        have hxv : x = v := by simpa using hx
        subst hxv
        simpa using hg2
    · rw [if_neg hg] at h
      exact absurd h (by simp)

theorem applyPreset_lookup_mem :
    ∀ (entries : List (Char × Nat)) (a : Assign) (d : Doms) (a2 : Assign) (d2 : Doms),
      applyPreset entries a d = some (a2, d2) →
      ∀ k v, alookup a2 (Var.letter k) = some v →
        alookup a (Var.letter k) = some v ∨ (k, v) ∈ entries := by
  intro entries
  induction entries with
  | nil =>
    intro a d a2 d2 h k v hl
    simp only [applyPreset, Option.some_inj, Prod.mk.injEq] at h
    obtain ⟨rfl, rfl⟩ := h
    exact Or.inl hl
  | cons kv rest ih =>
    intro a d a2 d2 h k v hl
    obtain ⟨k0, v0⟩ := kv
    simp only [applyPreset] at h
    by_cases hg : ((alookup d (Var.letter k0)).isSome
        && ((alookup d (Var.letter k0)).getD []).contains v0) = true
    · rw [if_pos hg] at h
      rcases ih _ _ _ _ h k v hl with hcase | hcase
      · by_cases hk : Var.letter k = Var.letter k0
        · obtain rfl : k = k0 := Var.letter.inj hk
          rw [alookup_aset_self] at hcase
          obtain rfl : v0 = v := by injection hcase
          exact Or.inr (List.mem_cons_self _ _)
        · rw [alookup_aset_ne _ _ _ _ hk] at hcase
          exact Or.inl hcase
      · exact Or.inr (List.mem_cons_of_mem _ hcase)
    · rw [if_neg hg] at h
      exact absurd h (by simp)

theorem applyPreset_distinct (c : Ctx) (entries : List (Char × Nat)) (d : Doms)
    (a2 : Assign) (d2 : Doms) (h : applyPreset entries [] d = some (a2, d2))
    (hval : (entries.map Prod.snd).Nodup) : LettersDistinct c a2 := by
  intro x y vx vy hx hy hxy hlx hly
  rcases applyPreset_lookup_mem entries [] d a2 d2 h x vx hlx with hxm | hxm
  · exact absurd hxm (by simp [alookup])
  rcases applyPreset_lookup_mem entries [] d a2 d2 h y vy hly with hym | hym
  · exact absurd hym (by simp [alookup])
  intro he
  have heq := List.inj_on_of_nodup_map hval hxm hym (by simpa using he)
  exact hxy (congrArg Prod.fst heq)

theorem searchInv_aset (c : Ctx) (P : Prop) (a : Assign) (d2 d : Doms) (var : Var) (val : Nat)
    (hinv : SearchInv c P a d) (hsub : DomsSub d2 d)
    (hval9 : ∀ ch, var = Var.letter ch → val ≤ 9)
    (hdiff : ∀ ch, var = Var.letter ch → ch ∈ c.letters →
      allDifferentConsistent c (Var.letter ch) val a = true) :
    SearchInv c P (aset a var val) d2 := by
  obtain ⟨hnd, ha9, hd9, hdist⟩ := hinv
  refine ⟨aset_keys_nodup a var val hnd,
    assignLe9_aset c a var val ha9 hval9,
    dLe9_of_sub c d2 d hsub hd9, fun hp => ?_⟩
  cases var with
  | carry i => exact lettersDistinct_aset_carry c a i val (hdist hp)
  | letter ch =>
    by_cases hch : ch ∈ c.letters
    · exact lettersDistinct_aset_letter c a ch val hch (hdiff ch rfl hch) (hdist hp)
    · intro x y vx vy hx hy hxy hlx hly
      have hxne : Var.letter x ≠ Var.letter ch := fun he => hch (Var.letter.inj he ▸ hx)
      have hyne : Var.letter y ≠ Var.letter ch := fun he => hch (Var.letter.inj he ▸ hy)
      rw [alookup_aset_ne _ _ _ _ hxne] at hlx
      rw [alookup_aset_ne _ _ _ _ hyne] at hly
      exact hdist hp x y vx vy hx hy hxy hlx hly

theorem searchInv_exit (c : Ctx) (P : Prop) (a3 : Assign) (dx d : Doms) (var : Var)
    (hnd3 : (a3.map Prod.fst).Nodup)
    (ha9 : ∀ ch v, ch ∈ c.letters → alookup a3 (Var.letter ch) = some v → v ≤ 9)
    (hdist : P → LettersDistinct c a3)
    (hd9 : ∀ ch v, ch ∈ c.letters → v ∈ (alookup d (Var.letter ch)).getD [] → v ≤ 9) :
    SearchInv c P (aerase a3 var) (restoreDoms dx d) :=
  ⟨aerase_keys_nodup a3 var hnd3,
    assignLe9_aerase c a3 var hnd3 ha9,
    dLe9_of_sub c _ d (restoreDoms_sub dx d) hd9,
    fun hp => lettersDistinct_aerase c a3 var hnd3 (hdist hp)⟩

theorem tryOne_sound (c : Ctx) (P : Prop) (recur : Assign → Doms → St → BTRes)
    (hrec : ∀ a2 d2 st2, SearchInv c P a2 d2 →
      SearchInv c P (recur a2 d2 st2).2.1 (recur a2 d2 st2).2.2.1
        ∧ ∀ sol, (recur a2 d2 st2).2.2.2 = some sol → SoundSol c P sol)
    (var : Var) (val : Nat) (a : Assign) (d : Doms) (st : St)
    (hval9 : ∀ ch, var = Var.letter ch → val ≤ 9)
    (hinv : SearchInv c P a d) :
    SearchInv c P (tryOne c recur var val a d st).2.1 (tryOne c recur var val a d st).2.2.1
      ∧ ∀ sol, (tryOne c recur var val a d st).2.2.2 = some sol → SoundSol c P sol := by
  have hd9 := hinv.2.2.1
  simp only [tryOne, snapshotDomains_eq]
  split
  · exact ⟨hinv, fun sol hsol => absurd hsol (by simp)⟩
  next hpre =>
    have hdiff : ∀ ch, var = Var.letter ch → ch ∈ c.letters →
        allDifferentConsistent c (Var.letter ch) val a = true := by
      intro ch he hch
      subst he
      cases hall : allDifferentConsistent c (Var.letter ch) val a with
      | true => rfl
      | false =>
        exfalso
        apply hpre
        have hl : c.isLetterVar (Var.letter ch) = true := by
          simp [Ctx.isLetterVar, hch]
        rw [hl, hall]
        rfl
    have hinv1 : ∀ dz : Doms, DomsSub dz d → SearchInv c P (aset a var val) dz :=
      fun dz hsub => searchInv_aset c P a dz d var val hinv hsub hval9 hdiff
    generalize hd1 : (if c.isLetterVar var = true
        then forwardCheck c var val (aset a var val) d else d) = d1
    have hsub1 : DomsSub d1 d := by
      rw [← hd1]
      split
      · exact forwardCheck_sub c var val (aset a var val) d
      · exact domsSub_refl d
    by_cases hac : c.useAc3 = true
    · rw [if_pos hac]
      generalize hrun : runAc3Propagation c d1 (aset a var val) = rr
      obtain ⟨ok, dp, evs⟩ := rr
      have hsub2 : DomsSub dp d := by
        have hx := runAc3_sub c d1 (aset a var val)
        rw [hrun] at hx
        exact domsSub_trans hx hsub1
      simp only []
      split
      next hok =>
        have h3 := hrec (aset a var val) dp ((st.push (Ev.assignEv var val)).pushAll evs)
          (hinv1 dp hsub2)
        split
        next st3 a3 d3 sol heq =>
          rw [heq] at h3
          obtain ⟨⟨hnd3, ha93, hd93, hdist3⟩, hsol3⟩ := h3
          split
          next hempty =>
            exact ⟨searchInv_exit c P a3 d3 d var hnd3 ha93 hdist3 hd9,
              fun sol2 hs2 => absurd hs2 (by simp)⟩
          next hnonempty =>
            exact ⟨⟨hnd3, ha93, hd93, hdist3⟩, fun sol2 hs2 => hsol3 sol2 hs2⟩
        next st3 a3 d3 heq =>
          rw [heq] at h3
          obtain ⟨⟨hnd3, ha93, hd93, hdist3⟩, hsol3⟩ := h3
          exact ⟨searchInv_exit c P a3 d3 d var hnd3 ha93 hdist3 hd9,
            fun sol2 hs2 => absurd hs2 (by simp)⟩
      next hok =>
        obtain ⟨hnd1, ha91, hd91, hdist1⟩ := hinv1 dp hsub2
        exact ⟨searchInv_exit c P (aset a var val) dp d var hnd1 ha91 hdist1 hd9,
          fun sol2 hs2 => absurd hs2 (by simp)⟩
    · rw [if_neg hac]
      simp only []
      split
      next hcons =>
        have h3 := hrec (aset a var val) d1 (st.push (Ev.assignEv var val)) (hinv1 d1 hsub1)
        split
        next st3 a3 d3 sol heq =>
          rw [heq] at h3
          obtain ⟨⟨hnd3, ha93, hd93, hdist3⟩, hsol3⟩ := h3
          split
          next hempty =>
            exact ⟨searchInv_exit c P a3 d3 d var hnd3 ha93 hdist3 hd9,
              fun sol2 hs2 => absurd hs2 (by simp)⟩
          next hnonempty =>
            exact ⟨⟨hnd3, ha93, hd93, hdist3⟩, fun sol2 hs2 => hsol3 sol2 hs2⟩
        next st3 a3 d3 heq =>
          rw [heq] at h3
          obtain ⟨⟨hnd3, ha93, hd93, hdist3⟩, hsol3⟩ := h3
          exact ⟨searchInv_exit c P a3 d3 d var hnd3 ha93 hdist3 hd9,
            fun sol2 hs2 => absurd hs2 (by simp)⟩
      next hcons =>
        obtain ⟨hnd1, ha91, hd91, hdist1⟩ := hinv1 d1 hsub1
        exact ⟨searchInv_exit c P (aset a var val) d1 d var hnd1 ha91 hdist1 hd9,
          fun sol2 hs2 => absurd hs2 (by simp)⟩

theorem tryVals_sound (c : Ctx) (P : Prop) (recur : Assign → Doms → St → BTRes)
    (hrec : ∀ a2 d2 st2, SearchInv c P a2 d2 →
      SearchInv c P (recur a2 d2 st2).2.1 (recur a2 d2 st2).2.2.1
        ∧ ∀ sol, (recur a2 d2 st2).2.2.2 = some sol → SoundSol c P sol)
    (var : Var) :
    ∀ (vals : List Nat) (a : Assign) (d : Doms) (st : St),
      (∀ v ∈ vals, ∀ ch, var = Var.letter ch → v ≤ 9) →
      SearchInv c P a d →
      SearchInv c P (tryVals c recur var vals a d st).2.1 (tryVals c recur var vals a d st).2.2.1
        ∧ ∀ sol, (tryVals c recur var vals a d st).2.2.2 = some sol → SoundSol c P sol := by
  intro vals
  induction vals with
  | nil =>
    intro a d st hv hinv
    exact ⟨hinv, fun sol hsol => absurd hsol (by simp [tryVals])⟩
  | cons val rest ih =>
    intro a d st hv hinv
    have h1 := tryOne_sound c P recur hrec var val a d st
      (fun ch he => hv val (List.mem_cons_self _ _) ch he) hinv
    simp only [tryVals]
    split
    next st1 a1 d1 sol heq =>
      rw [heq] at h1
      exact ⟨h1.1, h1.2⟩
    next st1 a1 d1 heq =>
      rw [heq] at h1
      exact ih a1 d1 st1 (fun v hvm ch he => hv v (List.mem_cons_of_mem _ hvm) ch he) h1.1

theorem backtrack_sound (c : Ctx) (P : Prop) :
    ∀ (fuel : Nat) (a : Assign) (d : Doms) (st : St),
      SearchInv c P a d →
      SearchInv c P (backtrack c fuel a d st).2.1 (backtrack c fuel a d st).2.2.1
        ∧ ∀ sol, (backtrack c fuel a d st).2.2.2 = some sol → SoundSol c P sol := by
  intro fuel
  induction fuel with
  | zero => intro a d st hinv; exact ⟨hinv, fun sol h => absurd h (by simp [backtrack])⟩
  | succ fuel ih =>
    intro a d st hinv
    simp only [backtrack]
    split
    next hlen =>
      split
      next hcarry =>
        split
        next hall =>
          split
          next heval =>
            refine ⟨hinv, fun sol hsol => ?_⟩
            have hse : solMapOf c a = sol := by simpa using hsol
            exact ⟨a, hall, heval, hse.symm, hinv.2.1, hinv.2.2.2⟩
          next heval => exact ⟨hinv, fun sol h => absurd h (by simp)⟩
        next hall => exact ⟨hinv, fun sol h => absurd h (by simp)⟩
      next hcarry => exact ⟨hinv, fun sol h => absurd h (by simp)⟩
    next hlen =>
      split
      next hsel => exact ⟨hinv, fun sol h => absurd h (by simp)⟩
      next var hsel =>
        have hmem := selectUnassignedVar_mem c a d var hsel
        have hv9 : ∀ v ∈ (alookup d var).getD [], ∀ ch, var = Var.letter ch → v ≤ 9 := by
          intro v hv ch he
          subst he
          have hch : ch ∈ c.letters := (variables_letter_iff c ch).mp hmem.1
          exact hinv.2.2.1 ch v hch hv
        exact tryVals_sound c P (backtrack c fuel) (fun a2 d2 st2 h2 => ih a2 d2 st2 h2) var
          ((alookup d var).getD []) a d _ hv9 hinv

/-
The numeric bridge: a successful word_value parse equals the base-10 value of
the word, and the final check certifies the sum equation.
-/

theorem wordValuePy_eq (m : List (Char × Nat)) (w : List Char) :
    wordValuePy m w = if w.isEmpty then none else w.foldl (pyStep m) (some 0) := rfl

theorem pyStep_none (m : List (Char × Nat)) :
    ∀ (w : List Char), w.foldl (pyStep m) none = none := by
  intro w
  induction w with
  | nil => rfl
  | cons ch t ih =>
    have hs : pyStep m none ch = none := by
      unfold pyStep
      cases alookup m ch <;> rfl
    rw [List.foldl_cons, hs]
    exact ih

theorem pyStep_fold_sound (m : List (Char × Nat))
    (hm : ∀ ch dgt, alookup m ch = some dgt → dgt ≤ 9) :
    ∀ (w : List Char) (acc : Nat) (v : Nat),
      w.foldl (pyStep m) (some acc) = some v →
      v = w.foldl (fun acc ch => acc * 10 + (alookup m ch).getD 0) acc := by
  intro w
  induction w with
  | nil =>
    intro acc v h
    simpa using h.symm
  | cons ch t ih =>
    intro acc v h
    rw [List.foldl_cons] at h
    cases hl : alookup m ch with
    | none =>
      have hs : pyStep m (some acc) ch = none := by
        unfold pyStep
        rw [hl]
      rw [hs, pyStep_none] at h
      exact absurd h (by simp)
    | some dgt =>
      have hdl : decimalLen dgt = 1 := decimalLen_le9 dgt (hm ch dgt hl)
      have hs : pyStep m (some acc) ch = some (acc * 10 + dgt) := by
        unfold pyStep
        rw [hl]
        simp [hdl]
      rw [hs] at h
      rw [List.foldl_cons, hl]
      simp only [Option.getD_some]
      exact ih (acc * 10 + dgt) v h

theorem wordValuePy_sound (m : List (Char × Nat))
    (hm : ∀ ch dgt, alookup m ch = some dgt → dgt ≤ 9)
    (w : List Char) (v : Nat) (h : wordValuePy m w = some v) : v = numValue m w := by
  rw [wordValuePy_eq] at h
  by_cases hw : w.isEmpty = true
  · rw [if_pos hw] at h
    exact absurd h (by simp)
  · rw [if_neg hw] at h
    exact pyStep_fold_sound m hm w 0 v h

theorem mapM_wordValue (m : List (Char × Nat))
    (hm : ∀ ch dgt, alookup m ch = some dgt → dgt ≤ 9) :
    ∀ (ws : List (List Char)) (vs : List Nat),
      ws.mapM (wordValuePy m) = some vs → vs = ws.map (numValue m) := by
  intro ws
  induction ws with
  | nil =>
    intro vs h
    rw [List.mapM_nil] at h
    simpa using h.symm
  | cons w t ih =>
    intro vs h
    rw [List.mapM_cons] at h
    cases hw : wordValuePy m w with
    | none => rw [hw] at h; exact absurd h (by simp)
    | some v =>
      rw [hw] at h
      cases ht : t.mapM (wordValuePy m) with
      | none => rw [ht] at h; exact absurd h (by simp)
      | some vt =>
        rw [ht] at h
        have hv : v :: vt = vs := by simpa using h
        rw [← hv, List.map_cons, ← wordValuePy_sound m hm w v hw, ← ih vt ht]

theorem evaluateFull_sum (c : Ctx) (m : List (Char × Nat))
    (hm : ∀ ch dgt, alookup m ch = some dgt → dgt ≤ 9)
    (h : evaluateFullAssignment c m = true) :
    (c.words.map (numValue m)).sum = numValue m c.result := by
  unfold evaluateFullAssignment at h
  cases hws : c.words.mapM (wordValuePy m) with
  | none => rw [hws] at h; simp at h
  | some addends =>
    rw [hws] at h
    cases hr : wordValuePy m c.result with
    | none => rw [hr] at h; simp at h
    | some rv =>
      rw [hr] at h
      simp only [] at h
      rw [← mapM_wordValue m hm c.words addends hws,
        ← wordValuePy_sound m hm c.result rv hr]
      simpa using h

theorem letterMapOf_eq_solMapOf (c : Ctx) (a : Assign)
    (hall : lettersAllAssigned c a = true) : letterMapOf c a = solMapOf c a := by
  have hmem := List.all_eq_true.mp hall
  unfold letterMapOf solMapOf
  have main : ∀ (l : List Char), (∀ ch ∈ l, (alookup a (Var.letter ch)).isSome = true) →
      l.filterMap (fun ch => (alookup a (Var.letter ch)).map (fun v => (ch, v)))
        = l.map (fun ch => (ch, (alookup a (Var.letter ch)).getD 0)) := by
    intro l
    induction l with
    | nil => intro h; rfl
    | cons ch t ih =>
      intro h
      have hh := h ch (List.mem_cons_self _ _)
      cases hv : alookup a (Var.letter ch) with
      | none => rw [hv] at hh; exact absurd hh (by simp)
      | some v =>
        rw [List.filterMap_cons, List.map_cons]
        simp [hv, ih (fun x hx => h x (List.mem_cons_of_mem _ hx))]
  exact main c.letters hmem

theorem solMapOf_keys (c : Ctx) (af : Assign) :
    (solMapOf c af).map Prod.fst = c.letters := by
  unfold solMapOf
  generalize c.letters = l
  induction l with
  | nil => rfl
  | cons x t ih => simp [ih]

theorem solMapOf_mem_le9 (c : Ctx) (af : Assign)
    (hall : lettersAllAssigned c af = true)
    (ha9 : ∀ ch v, ch ∈ c.letters → alookup af (Var.letter ch) = some v → v ≤ 9) :
    ∀ pr ∈ solMapOf c af, pr.2 ≤ 9 := by
  intro pr hpr
  unfold solMapOf at hpr
  rw [List.mem_map] at hpr
  obtain ⟨x, hx, rfl⟩ := hpr
  have hs := List.all_eq_true.mp hall x hx
  cases hl : alookup af (Var.letter x) with
  | none => rw [hl] at hs; exact absurd hs (by simp)
  | some v =>
    simp only [hl, Option.getD_some]
    exact ha9 x v hx hl

theorem solMapOf_values_le9 (c : Ctx) (af : Assign)
    (hall : lettersAllAssigned c af = true)
    (ha9 : ∀ ch v, ch ∈ c.letters → alookup af (Var.letter ch) = some v → v ≤ 9) :
    ∀ ch dgt, alookup (solMapOf c af) ch = some dgt → dgt ≤ 9 := by
  intro ch dgt h
  have hmem := alookup_mem _ _ _ h
  exact solMapOf_mem_le9 c af hall ha9 (ch, dgt) hmem

/-
Soundness at the solve level.
-/

theorem searchPhase_sound (c : Ctx) (P : Prop) (a0 : Assign) (dx : Doms) (tr : List Ev)
    (hinv : SearchInv c P a0 dx) (sol : List (Char × Nat))
    (h : (searchPhase c a0 dx tr).solution = some sol) : SoundSol c P sol := by
  have hb := backtrack_sound c P (c.variables.length + 1) a0 (snapshotDomains dx)
    { trace := tr, steps := 0 } (by rw [snapshotDomains_eq]; exact hinv)
  unfold searchPhase at h
  split at h
  next st x y heq => exact absurd h (by simp)
  next st x y msol heq =>
    rw [heq] at hb
    have hms : msol = sol := by simpa using h
    exact hms ▸ hb.2 msol rfl

theorem solveSol_sound (w0 : List (List Char)) (r : List Char)
    (p : Option (List (Char × Nat))) (b : Bool) (P : Prop)
    (hP : ∀ a0 d1,
      applyPreset (normalizePreset (p.getD [])) [] (mkCtx w0 r b).initialDomains
        = some (a0, d1) →
      P → LettersDistinct (mkCtx w0 r b) a0)
    (sol : List (Char × Nat)) (h : solveSol w0 r p b = some sol) :
    SoundSol (mkCtx w0 r b) P sol := by
  simp only [solveSol, solveCryptarithm] at h
  split at h
  next heq => exact absurd h (by simp)
  next a0 d1 heq =>
    have hinv0 : SearchInv (mkCtx w0 r b) P a0 d1 := by
      have hi := applyPreset_inv (mkCtx w0 r b) (normalizePreset (p.getD [])) []
        (mkCtx w0 r b).initialDomains a0 d1 heq (by simp)
        (initialDomains_keys (mkCtx w0 r b))
        (fun ch v hch hl => absurd hl (by simp [alookup]))
        (initialDomains_le9 (mkCtx w0 r b))
      exact ⟨hi.1, hi.2.1, hi.2.2, hP a0 d1 heq⟩
    split at h
    next hac =>
      split at h
      next dx evs heq2 => exact absurd h (by simp)
      next d2 evs heq2 =>
        have hsub : DomsSub d2 d1 := by
          have hx := runAc3_sub (mkCtx w0 r b) d1 a0
          rw [heq2] at hx
          exact hx
        refine searchPhase_sound (mkCtx w0 r b) P a0 d2 _ ?_ sol h
        exact ⟨hinv0.1, hinv0.2.1, dLe9_of_sub _ _ _ hsub hinv0.2.2.1, hinv0.2.2.2⟩
    next hac =>
      exact searchPhase_sound (mkCtx w0 r b) P a0 d1 _ hinv0 sol h

/-- C1: a complete assignment is accepted only after the full checks pass, so
every assignment solve_cryptarithm returns passes evaluate_full_assignment
and satisfies the numeric equation: the base-10 values of the addend words
sum to the value of the result word. -/
theorem c1_returned_solution_valid (w0 : List (List Char)) (r : List Char)
    (p : Option (List (Char × Nat))) (b : Bool) (sol : List (Char × Nat))
    (h : solveSol w0 r p b = some sol) :
    evaluateFullAssignment (mkCtx w0 r b) sol = true
      ∧ ((mkCtx w0 r b).words.map (numValue sol)).sum = numValue sol (mkCtx w0 r b).result := by
  obtain ⟨af, hall, heval, hse, ha9, hdist⟩ :=
    solveSol_sound w0 r p b False (fun a0 d1 hap hf => absurd hf (by simp)) sol h
  have hlm : letterMapOf (mkCtx w0 r b) af = solMapOf (mkCtx w0 r b) af :=
    letterMapOf_eq_solMapOf _ af hall
  have heval2 : evaluateFullAssignment (mkCtx w0 r b) sol = true := by
    rw [hse, ← hlm]
    exact heval
  refine ⟨heval2, evaluateFull_sum (mkCtx w0 r b) sol ?_ heval2⟩
  intro ch dgt hl
  rw [hse] at hl
  exact solMapOf_values_le9 (mkCtx w0 r b) af hall ha9 ch dgt hl

/-- C1, witness: the puzzle A = A is solved with A=0, and the returned
mapping passes the full check and the numeric equation. -/
theorem c1_returned_solution_valid_witness :
    solveSol [['A']] ['A'] none false = some [('A', 0)]
      ∧ (evaluateFullAssignment (mkCtx [['A']] ['A'] false) [('A', 0)] = true
        ∧ ((mkCtx [['A']] ['A'] false).words.map (numValue [('A', 0)])).sum
            = numValue [('A', 0)] (mkCtx [['A']] ['A'] false).result) :=
  ⟨by decide, c1_returned_solution_valid [['A']] ['A'] none false [('A', 0)] (by decide)⟩

/-- C10: the key list of any returned mapping is exactly the letter pool of
the normalized words and result, in pool order, and every key is mapped to a
single digit; carry variables never appear since the solution map is built
over the letter pool only. -/
theorem c10_solution_keys (w0 : List (List Char)) (r : List Char)
    (p : Option (List (Char × Nat))) (b : Bool) (sol : List (Char × Nat))
    (h : solveSol w0 r p b = some sol) :
    sol.map Prod.fst = (mkCtx w0 r b).letters ∧ ∀ pr ∈ sol, pr.2 ≤ 9 := by
  obtain ⟨af, hall, heval, hse, ha9, hdist⟩ :=
    solveSol_sound w0 r p b False (fun a0 d1 hap hf => absurd hf (by simp)) sol h
  subst hse
  exact ⟨solMapOf_keys _ af, solMapOf_mem_le9 _ af hall ha9⟩

/-- C10, witness: solving A = A returns the mapping with key list exactly
the letter pool [A] and a digit value. -/
theorem c10_solution_keys_witness :
    solveSol [['A']] ['A'] none false = some [('A', 0)]
      ∧ ([('A', 0)].map Prod.fst = (mkCtx [['A']] ['A'] false).letters
        ∧ ∀ pr ∈ [('A', (0 : Nat))], pr.2 ≤ 9) :=
  ⟨by decide, c10_solution_keys [['A']] ['A'] none false [('A', 0)] (by decide)⟩

/-- C3 amended: when the normalized preset values are pairwise distinct (in
particular always with an empty or absent preset), any returned assignment
gives distinct letters pairwise distinct digits. The unamended claim fails
because a preset may assign the same digit to two letters, see the
counterexample. -/
theorem c3_amended (w0 : List (List Char)) (r : List Char)
    (p : Option (List (Char × Nat))) (b : Bool) (sol : List (Char × Nat))
    (hp : ((normalizePreset (p.getD [])).map Prod.snd).Nodup)
    (h : solveSol w0 r p b = some sol) :
    ∀ pr1 ∈ sol, ∀ pr2 ∈ sol, pr1.1 ≠ pr2.1 → pr1.2 ≠ pr2.2 := by
  obtain ⟨af, hall, heval, hse, ha9, hdist⟩ :=
    solveSol_sound w0 r p b (((normalizePreset (p.getD [])).map Prod.snd).Nodup)
      (fun a0 d1 hap hnd => applyPreset_distinct (mkCtx w0 r b) _ _ a0 d1 hap hnd) sol h
  have hdist2 := hdist hp
  subst hse
  intro pr1 h1 pr2 h2 hne
  unfold solMapOf at h1 h2
  rw [List.mem_map] at h1 h2
  obtain ⟨x, hx, rfl⟩ := h1
  obtain ⟨y, hy, rfl⟩ := h2
  have hxy : x ≠ y := fun he => hne (by rw [he])
  have hsx := List.all_eq_true.mp hall x hx
  have hsy := List.all_eq_true.mp hall y hy
  cases hlx : alookup af (Var.letter x) with
  | none => rw [hlx] at hsx; exact absurd hsx (by simp)
  | some vx =>
    cases hly : alookup af (Var.letter y) with
    | none => rw [hly] at hsy; exact absurd hsy (by simp)
    | some vy =>
      simp only [hlx, hly, Option.getD_some]
      exact hdist2 x y vx vy hx hy hxy hlx hly

/-- C3 amended, witness: with no preset (whose normalized value list is
trivially duplicate-free), solving A = A returns a mapping whose distinct
keys hold distinct digits. -/
theorem c3_amended_witness :
    ((normalizePreset ((none : Option (List (Char × Nat))).getD [])).map Prod.snd).Nodup
      ∧ solveSol [['A']] ['A'] none false = some [('A', 0)]
      ∧ (∀ pr1 ∈ [('A', (0 : Nat))], ∀ pr2 ∈ [('A', (0 : Nat))],
          pr1.1 ≠ pr2.1 → pr1.2 ≠ pr2.2) :=
  ⟨by decide, by decide,
    c3_amended [['A']] ['A'] none false [('A', 0)] (by decide) (by decide)⟩

/-
Frame lemmas for the backtracking restore: the solver never adds or removes
domain-map keys during the search, so the restore returns the exact entry
state; and the failed candidate erases exactly its tentative assignment.
-/

theorem alookup_isSome_iff_mem {α β : Type} [DecidableEq α] :
    ∀ (m : List (α × β)) (k : α), (alookup m k).isSome = true ↔ k ∈ m.map Prod.fst := by
  intro m
  induction m with
  | nil => intro k; simp [alookup]
  | cons kv t ih =>
    intro k
    obtain ⟨k0, v0⟩ := kv
    by_cases h : k0 = k
    · subst h
      simp [alookup]
    · have h2 : ¬ (k = k0) := fun he => h he.symm
      simp only [alookup, if_neg h, List.map_cons, List.mem_cons, ih k]
      constructor
      · intro hm; exact Or.inr hm
      · rintro (h1 | h1)
        · exact absurd h1 h2
        · exact h1

theorem aset_keys_of_mem {α β : Type} [DecidableEq α] :
    ∀ (m : List (α × β)) (k : α) (v : β), k ∈ m.map Prod.fst →
      (aset m k v).map Prod.fst = m.map Prod.fst := by
  intro m
  induction m with
  | nil => intro k v h; exact absurd h (by simp)
  | cons kv t ih =>
    intro k v h
    obtain ⟨k0, v0⟩ := kv
    by_cases h0 : k0 = k
    · subst h0
      simp [aset]
    · have hmem : k ∈ t.map Prod.fst := by
        have hcons : k ∈ k0 :: t.map Prod.fst := h
        rcases List.mem_cons.mp hcons with h1 | h1
        · exact absurd h1.symm h0
        · exact h1
      simp [aset, h0, ih k v hmem]

theorem aerase_aset_of_none {α β : Type} [DecidableEq α] :
    ∀ (m : List (α × β)) (k : α) (v : β), alookup m k = none →
      aerase (aset m k v) k = m := by
  intro m
  induction m with
  | nil => intro k v h; simp [aset, aerase]
  | cons kv t ih =>
    intro k v h
    obtain ⟨k0, v0⟩ := kv
    simp only [alookup] at h
    by_cases h0 : k0 = k
    · rw [if_pos h0] at h
      exact absurd h (by simp)
    · rw [if_neg h0] at h
      simp [aset, aerase, h0, ih k v h]

theorem forwardCheck_keys (c : Ctx) (var : Var) (val : Nat) (a : Assign) (d : Doms) :
    (forwardCheck c var val a d).map Prod.fst = d.map Prod.fst := by
  unfold forwardCheck
  generalize c.neighbors var = ns
  induction ns generalizing d with
  | nil => rfl
  | cons n t ih =>
    simp only [List.foldl_cons]
    split
    next hg =>
      rw [ih]
      refine aset_keys_of_mem _ _ _ ?_
      rw [Bool.and_eq_true] at hg
      cases hl : alookup d (Var.letter n) with
      | none => rw [hl] at hg; simp at hg
      | some vs => exact (alookup_isSome_iff_mem d (Var.letter n)).mp (by simp [hl])
    next hg => exact ih d

theorem reviseAllDiff_keys (xi xj : Var) (d : Doms) :
    (reviseAllDiff xi xj d).1.map Prod.fst = d.map Prod.fst := by
  simp only [reviseAllDiff]
  split
  · rfl
  next hg =>
    refine aset_keys_of_mem _ _ _ ?_
    cases hl : alookup d xi with
    | none =>
      exfalso
      apply hg
      rw [hl]
      simp
    | some vs => exact (alookup_isSome_iff_mem d xi).mp (by simp [hl])

theorem ac3Loop_keys (c : Ctx) :
    ∀ (fuel : Nat) (q : List (Var × Var)) (d : Doms) (evs : List Ev),
      (ac3Loop c fuel q d evs).2.1.map Prod.fst = d.map Prod.fst := by
  intro fuel
  induction fuel with
  | zero => intro q d evs; rfl
  | succ fuel ih =>
    intro q d evs
    match q with
    | [] => rfl
    | (xi, xj) :: q2 =>
      have hk := reviseAllDiff_keys xi xj d
      simp only [ac3Loop]
      split
      · rw [ih]; exact hk
      · split
        · exact hk
        · rw [ih]; exact hk

theorem pruneOneColumn_keys (c : Ctx) (col : Nat) (st : Doms × List (Var × List Nat)) :
    (pruneOneColumn c col st).1.map Prod.fst = st.1.map Prod.fst := by
  have main : ∀ (ks2 : List Var) (sup : List (Var × List Nat)) (st2 : Doms × List (Var × List Nat)),
      ((ks2.foldl (fun st v =>
        let dv := (alookup st.1 v).getD []
        let sup2 := (alookup sup v).getD []
        let toRemove := dv.filter (fun x => !(sup2.contains x))
        if toRemove.isEmpty then st
        else (aset st.1 v (dv.filter (fun x => sup2.contains x)), rmUpdate st.2 v toRemove)) st2)).1.map Prod.fst
        = st2.1.map Prod.fst := by
    intro ks2
    induction ks2 with
    | nil => intro sup st2; rfl
    | cons v t ih =>
      intro sup st2
      rw [List.foldl_cons, ih sup _]
      simp only []
      split
      · rfl
      next hg =>
        refine aset_keys_of_mem _ _ _ ?_
        cases hl : alookup st2.1 v with
        | none =>
          exfalso
          apply hg
          rw [hl]
          simp
        | some vs => exact (alookup_isSome_iff_mem st2.1 v).mp (by simp [hl])
  exact main (c.colInvolved col) _ st

theorem pruneColumnwise_keys (c : Ctx) (d : Doms)
    (htop : Var.carry (c.maxLen - 1) ∈ d.map Prod.fst) :
    (pruneColumnwise c d).1.map Prod.fst = d.map Prod.fst := by
  have main : ∀ (cols : List Nat) (st : Doms × List (Var × List Nat)),
      ((cols.foldl (fun st col => pruneOneColumn c col st) st)).1.map Prod.fst
        = st.1.map Prod.fst := by
    intro cols
    induction cols with
    | nil => intro st; rfl
    | cons col t ih =>
      intro st
      rw [List.foldl_cons, ih _, pruneOneColumn_keys]
  have hmain := main (List.range c.maxLen) (d, [])
  simp only [pruneColumnwise]
  split
  · split
    · have hm2 : Var.carry (c.maxLen - 1) ∈ ((List.range c.maxLen).foldl
          (fun st col => pruneOneColumn c col st) (d, [])).1.map Prod.fst := by
        rw [hmain]; exact htop
      rw [aset_keys_of_mem _ _ _ hm2, hmain]
    · exact hmain
  · exact hmain

theorem runAc3_keys (c : Ctx) (d : Doms) (a : Assign)
    (htop : Var.carry (c.maxLen - 1) ∈ d.map Prod.fst) :
    (runAc3Propagation c d a).2.1.map Prod.fst = d.map Prod.fst := by
  have h1 := ac3Loop_keys c c.ac3Fuel c.initQueue d []
  simp only [runAc3Propagation]
  split
  next d1 evs heq =>
    rw [heq] at h1
    exact h1
  next d1 evs heq =>
    rw [heq] at h1
    have h2 : (pruneColumnwise c d1).1.map Prod.fst = d.map Prod.fst := by
      rw [pruneColumnwise_keys c d1 (by rw [h1]; exact htop), h1]
    split
    · exact h2
    · split
      · exact h2
      · exact h2

theorem restoreDoms_keys (cur snap : Doms) :
    (restoreDoms cur snap).map Prod.fst = cur.map Prod.fst := by
  unfold restoreDoms
  rw [List.map_map]
  rfl

theorem restoreDoms_congr (cur : Doms) (snap snap2 : Doms)
    (h : ∀ k, k ∈ cur.map Prod.fst → alookup snap k = alookup snap2 k) :
    restoreDoms cur snap = restoreDoms cur snap2 := by
  unfold restoreDoms
  apply List.map_congr_left
  intro kv hkv
  rw [h kv.1 (List.mem_map_of_mem _ hkv)]

theorem restoreDoms_eq_self :
    ∀ (cur snap : Doms), cur.map Prod.fst = snap.map Prod.fst →
      ((snap.map Prod.fst).Nodup) → restoreDoms cur snap = snap := by
  intro cur
  induction cur with
  | nil =>
    intro snap hk hnd
    cases snap with
    | nil => rfl
    | cons s t => exact absurd hk (by simp)
  | cons kv t ih =>
    intro snap hk hnd
    obtain ⟨k, v⟩ := kv
    cases snap with
    | nil => exact absurd hk (by simp)
    | cons sv st =>
      obtain ⟨sk, svv⟩ := sv
      simp only [List.map_cons, List.cons.injEq] at hk
      obtain ⟨rfl, hk2⟩ := hk
      simp only [List.map_cons, List.nodup_cons] at hnd
      have htail : restoreDoms t ((k, svv) :: st) = restoreDoms t st := by
        apply restoreDoms_congr
        intro k2 hk2m
        have hk2s : k2 ∈ st.map Prod.fst := by rw [← hk2]; exact hk2m
        have hne : ¬ (k = k2) := fun he => hnd.1 (he ▸ hk2s)
        simp [alookup, hne]
      show (k, (alookup ((k, svv) :: st) k).getD []) :: restoreDoms t ((k, svv) :: st)
          = (k, svv) :: st
      rw [htail, ih st hk2 hnd.2]
      simp [alookup]

/-
The trace is append-only through the search.
-/

theorem tryOne_trace (c : Ctx) (recur : Assign → Doms → St → BTRes)
    (hrect : ∀ a2 d2 st2, ∃ evs, (recur a2 d2 st2).1.trace = st2.trace ++ evs)
    (var : Var) (val : Nat) (a : Assign) (d : Doms) (st : St) :
    ∃ evs, (tryOne c recur var val a d st).1.trace = st.trace ++ evs := by
  simp only [tryOne]
  split
  · exact ⟨[], by simp⟩
  next hpre =>
    generalize (if c.isLetterVar var = true
        then forwardCheck c var val (aset a var val) d else d) = d1
    by_cases hac : c.useAc3 = true
    · rw [if_pos hac]
      generalize hrun : runAc3Propagation c d1 (aset a var val) = rr
      obtain ⟨ok, dp, evs⟩ := rr
      simp only []
      split
      next hok =>
        obtain ⟨e2, he2⟩ := hrect (aset a var val) dp
          ((st.push (Ev.assignEv var val)).pushAll evs)
        split
        next st3 a3 d3 sol heq =>
          rw [heq] at he2
          have he2s : st3.trace = ((st.push (Ev.assignEv var val)).pushAll evs).trace ++ e2 := he2
          split
          · exact ⟨[Ev.assignEv var val] ++ evs ++ e2 ++ [Ev.unassignEv var],
              by simp [St.push, St.pushAll, he2s]⟩
          · exact ⟨[Ev.assignEv var val] ++ evs ++ e2,
              by simp [St.push, St.pushAll, he2s]⟩
        next st3 a3 d3 heq =>
          rw [heq] at he2
          have he2s : st3.trace = ((st.push (Ev.assignEv var val)).pushAll evs).trace ++ e2 := he2
          exact ⟨[Ev.assignEv var val] ++ evs ++ e2 ++ [Ev.unassignEv var],
            by simp [St.push, St.pushAll, he2s]⟩
      next hok =>
        exact ⟨[Ev.assignEv var val] ++ evs ++ [Ev.unassignEv var],
          by simp [St.push, St.pushAll]⟩
    · rw [if_neg hac]
      simp only []
      split
      next hok =>
        obtain ⟨e2, he2⟩ := hrect (aset a var val) d1 (st.push (Ev.assignEv var val))
        split
        next st3 a3 d3 sol heq =>
          rw [heq] at he2
          have he2s : st3.trace = (st.push (Ev.assignEv var val)).trace ++ e2 := he2
          split
          · exact ⟨[Ev.assignEv var val] ++ e2 ++ [Ev.unassignEv var],
              by simp [St.push, he2s]⟩
          · exact ⟨[Ev.assignEv var val] ++ e2, by simp [St.push, he2s]⟩
        next st3 a3 d3 heq =>
          rw [heq] at he2
          have he2s : st3.trace = (st.push (Ev.assignEv var val)).trace ++ e2 := he2
          exact ⟨[Ev.assignEv var val] ++ e2 ++ [Ev.unassignEv var],
            by simp [St.push, he2s]⟩
      next hok =>
        exact ⟨[Ev.assignEv var val] ++ [Ev.unassignEv var], by simp [St.push]⟩

theorem tryVals_trace (c : Ctx) (recur : Assign → Doms → St → BTRes)
    (hrect : ∀ a2 d2 st2, ∃ evs, (recur a2 d2 st2).1.trace = st2.trace ++ evs)
    (var : Var) :
    ∀ (vals : List Nat) (a : Assign) (d : Doms) (st : St),
      ∃ evs, (tryVals c recur var vals a d st).1.trace = st.trace ++ evs := by
  intro vals
  induction vals with
  | nil => intro a d st; exact ⟨[], by simp [tryVals]⟩
  | cons val rest ih =>
    intro a d st
    obtain ⟨e1, he1⟩ := tryOne_trace c recur hrect var val a d st
    simp only [tryVals]
    split
    next st1 a1 d1 sol heq =>
      rw [heq] at he1
      exact ⟨e1, he1⟩
    next st1 a1 d1 heq =>
      rw [heq] at he1
      obtain ⟨e2, he2⟩ := ih a1 d1 st1
      refine ⟨e1 ++ e2, ?_⟩
      rw [he2]
      have he1s : st1.trace = st.trace ++ e1 := he1
      rw [he1s, List.append_assoc]

theorem backtrack_trace (c : Ctx) :
    ∀ (fuel : Nat) (a : Assign) (d : Doms) (st : St),
      ∃ evs, (backtrack c fuel a d st).1.trace = st.trace ++ evs := by
  intro fuel
  induction fuel with
  | zero => intro a d st; exact ⟨[], by simp [backtrack]⟩
  | succ fuel ih =>
    intro a d st
    simp only [backtrack]
    split
    · split
      · split
        · split
          · exact ⟨[Ev.curAssign a, Ev.curDomains d,
              Ev.endEv (some (solMapOf c a)) none none],
              by simp [St.push, St.incSteps]⟩
          · exact ⟨[Ev.curAssign a, Ev.curDomains d], by simp [St.push, St.incSteps]⟩
        · exact ⟨[Ev.curAssign a, Ev.curDomains d], by simp [St.push, St.incSteps]⟩
      · exact ⟨[Ev.curAssign a, Ev.curDomains d], by simp [St.push, St.incSteps]⟩
    · split
      · exact ⟨[Ev.curAssign a, Ev.curDomains d], by simp [St.push, St.incSteps]⟩
      next var hsel =>
        obtain ⟨e2, he2⟩ := tryVals_trace c (backtrack c fuel)
          (fun a2 d2 st2 => ih a2 d2 st2) var ((alookup d var).getD []) a d
          (((st.incSteps).push (Ev.curAssign a)).push (Ev.curDomains d))
        refine ⟨[Ev.curAssign a, Ev.curDomains d] ++ e2, ?_⟩
        rw [he2]
        simp [St.push, St.incSteps]

/-
Every solution the search emits covers the full letter pool, so a solution
is never the empty mapping when letters exist.
-/

theorem tryOne_sol_length (c : Ctx) (recur : Assign → Doms → St → BTRes)
    (hrec : ∀ a2 d2 st2 sol, (recur a2 d2 st2).2.2.2 = some sol →
      sol.length = c.letters.length)
    (var : Var) (val : Nat) (a : Assign) (d : Doms) (st : St) (sol : List (Char × Nat))
    (h : (tryOne c recur var val a d st).2.2.2 = some sol) :
    sol.length = c.letters.length := by
  simp only [tryOne] at h
  split at h
  · exact absurd h (by simp)
  next hpre =>
    set E := (if c.isLetterVar var = true
        then forwardCheck c var val (aset a var val) d else d) with hE
    by_cases hac : c.useAc3 = true
    · rw [if_pos hac] at h
      split at h
      · split at h
        next st3 a3 d3 sol2 heq =>
          split at h
          · exact absurd h (by simp)
          · have hs : sol2 = sol := by simpa using h
            exact hs ▸ hrec _ _ _ sol2 (congrArg (fun r : BTRes => r.2.2.2) heq)
        next st3 a3 d3 heq => exact absurd h (by simp)
      · exact absurd h (by simp)
    · rw [if_neg hac] at h
      split at h
      · split at h
        next st3 a3 d3 sol2 heq =>
          split at h
          · exact absurd h (by simp)
          · have hs : sol2 = sol := by simpa using h
            exact hs ▸ hrec _ _ _ sol2 (congrArg (fun r : BTRes => r.2.2.2) heq)
        next st3 a3 d3 heq => exact absurd h (by simp)
      · exact absurd h (by simp)

theorem tryVals_sol_length (c : Ctx) (recur : Assign → Doms → St → BTRes)
    (hrec : ∀ a2 d2 st2 sol, (recur a2 d2 st2).2.2.2 = some sol →
      sol.length = c.letters.length)
    (var : Var) :
    ∀ (vals : List Nat) (a : Assign) (d : Doms) (st : St) (sol : List (Char × Nat)),
      (tryVals c recur var vals a d st).2.2.2 = some sol →
      sol.length = c.letters.length := by
  intro vals
  induction vals with
  | nil => intro a d st sol h; exact absurd h (by simp [tryVals])
  | cons val rest ih =>
    intro a d st sol h
    simp only [tryVals] at h
    split at h
    next st1 a1 d1 sol2 heq =>
      have hs : sol2 = sol := by simpa using h
      have h4 := congrArg (fun r : BTRes => r.2.2.2) heq
      exact hs ▸ tryOne_sol_length c recur hrec var val a d st sol2 h4
    next st1 a1 d1 heq => exact ih a1 d1 st1 sol h

theorem backtrack_sol_length (c : Ctx) :
    ∀ (fuel : Nat) (a : Assign) (d : Doms) (st : St) (sol : List (Char × Nat)),
      (backtrack c fuel a d st).2.2.2 = some sol → sol.length = c.letters.length := by
  intro fuel
  induction fuel with
  | zero => intro a d st sol h; exact absurd h (by simp [backtrack])
  | succ fuel ih =>
    intro a d st sol h
    simp only [backtrack] at h
    split at h
    next hlen =>
      split at h
      next hcarry =>
        split at h
        next hall =>
          split at h
          next heval =>
            have hs : solMapOf c a = sol := by simpa using h
            rw [← hs]
            simp [solMapOf]
          next => exact absurd h (by simp)
        next => exact absurd h (by simp)
      next => exact absurd h (by simp)
    next hlen =>
      split at h
      next => exact absurd h (by simp)
      next var hsel =>
        exact tryVals_sol_length c (backtrack c fuel)
          (fun a2 d2 st2 sol2 h2 => ih a2 d2 st2 sol2 h2) var _ a d _ sol h

/-
The frame property of a failed candidate: the assignment and domain map are
restored exactly to the node-entry state, with the UNASSIGN event appended.
-/

theorem tryOne_frame (c : Ctx) (recur : Assign → Doms → St → BTRes)
    (hrecframe : ∀ a2 d2 st2, (d2.map Prod.fst).Nodup →
      Var.carry (c.maxLen - 1) ∈ d2.map Prod.fst →
      (recur a2 d2 st2).2.2.2 = none →
      (recur a2 d2 st2).2.1 = a2 ∧ (recur a2 d2 st2).2.2.1 = d2)
    (hrecsol : ∀ a2 d2 st2 sol, (recur a2 d2 st2).2.2.2 = some sol →
      sol.length = c.letters.length)
    (var : Var) (val : Nat) (a : Assign) (d : Doms) (st : St)
    (hnd : (d.map Prod.fst).Nodup)
    (htop : Var.carry (c.maxLen - 1) ∈ d.map Prod.fst)
    (hlet : c.letters ≠ [])
    (hvar : alookup a var = none)
    (hfail : (tryOne c recur var val a d st).2.2.2 = none) :
    (tryOne c recur var val a d st).2.1 = a
      ∧ (tryOne c recur var val a d st).2.2.1 = d := by
  simp only [tryOne, snapshotDomains_eq] at hfail ⊢
  by_cases hskip : (c.isLetterVar var && !allDifferentConsistent c var val a) = true
  · rw [if_pos hskip]
    exact ⟨rfl, rfl⟩
  · rw [if_neg hskip] at hfail ⊢
    set E := (if c.isLetterVar var = true
        then forwardCheck c var val (aset a var val) d else d) with hE
    have hkE : E.map Prod.fst = d.map Prod.fst := by
      rw [hE]
      split
      · exact forwardCheck_keys c var val (aset a var val) d
      · rfl
    by_cases hac : c.useAc3 = true
    · rw [if_pos hac] at hfail ⊢
      have hkdp : (runAc3Propagation c E (aset a var val)).2.1.map Prod.fst
          = d.map Prod.fst :=
        (runAc3_keys c E (aset a var val) (by rw [hkE]; exact htop)).trans hkE
      by_cases hok : (runAc3Propagation c E (aset a var val)).1 = true
      · rw [if_pos hok] at hfail ⊢
        have hrc : recur (aset a var val) (runAc3Propagation c E (aset a var val)).2.1
              ((st.push (Ev.assignEv var val)).pushAll
                (runAc3Propagation c E (aset a var val)).2.2)
            = ((recur (aset a var val) (runAc3Propagation c E (aset a var val)).2.1
                ((st.push (Ev.assignEv var val)).pushAll
                  (runAc3Propagation c E (aset a var val)).2.2)).1,
               (recur (aset a var val) (runAc3Propagation c E (aset a var val)).2.1
                ((st.push (Ev.assignEv var val)).pushAll
                  (runAc3Propagation c E (aset a var val)).2.2)).2.1,
               (recur (aset a var val) (runAc3Propagation c E (aset a var val)).2.1
                ((st.push (Ev.assignEv var val)).pushAll
                  (runAc3Propagation c E (aset a var val)).2.2)).2.2.1,
               (recur (aset a var val) (runAc3Propagation c E (aset a var val)).2.1
                ((st.push (Ev.assignEv var val)).pushAll
                  (runAc3Propagation c E (aset a var val)).2.2)).2.2.2) := rfl
        rw [hrc] at hfail ⊢
        cases hos : (recur (aset a var val) (runAc3Propagation c E (aset a var val)).2.1
            ((st.push (Ev.assignEv var val)).pushAll
              (runAc3Propagation c E (aset a var val)).2.2)).2.2.2 with
        | some sol =>
          rw [hos] at hfail
          simp only [] at hfail
          have hlen := hrecsol _ _ _ sol hos
          have hne : ¬ (sol.isEmpty = true) := by
            cases sol with
            | nil => intro hx; exact hlet (List.eq_nil_of_length_eq_zero hlen.symm)
            | cons x t => simp
          rw [if_neg hne] at hfail
          exact absurd hfail (by simp)
        | none =>
          simp only []
          have hfr := hrecframe _ _ _ (by rw [hkdp]; exact hnd) (by rw [hkdp]; exact htop) hos
          rw [hfr.1, hfr.2]
          exact ⟨aerase_aset_of_none a var val hvar,
            restoreDoms_eq_self (runAc3Propagation c E (aset a var val)).2.1 d hkdp hnd⟩
      · rw [if_neg hok]
        exact ⟨aerase_aset_of_none a var val hvar,
          restoreDoms_eq_self (runAc3Propagation c E (aset a var val)).2.1 d hkdp hnd⟩
    · rw [if_neg hac] at hfail ⊢
      by_cases hok : carriesConsistentPartial c (aset a var val) E = true
      · rw [if_pos hok] at hfail ⊢
        have hrc : recur (aset a var val) E (st.push (Ev.assignEv var val))
            = ((recur (aset a var val) E (st.push (Ev.assignEv var val))).1,
               (recur (aset a var val) E (st.push (Ev.assignEv var val))).2.1,
               (recur (aset a var val) E (st.push (Ev.assignEv var val))).2.2.1,
               (recur (aset a var val) E (st.push (Ev.assignEv var val))).2.2.2) := rfl
        rw [hrc] at hfail ⊢
        cases hos : (recur (aset a var val) E (st.push (Ev.assignEv var val))).2.2.2 with
        | some sol =>
          rw [hos] at hfail
          simp only [] at hfail
          have hlen := hrecsol _ _ _ sol hos
          have hne : ¬ (sol.isEmpty = true) := by
            cases sol with
            | nil => intro hx; exact hlet (List.eq_nil_of_length_eq_zero hlen.symm)
            | cons x t => simp
          rw [if_neg hne] at hfail
          exact absurd hfail (by simp)
        | none =>
          simp only []
          have hfr := hrecframe _ _ _ (by rw [hkE]; exact hnd) (by rw [hkE]; exact htop) hos
          rw [hfr.1, hfr.2]
          exact ⟨aerase_aset_of_none a var val hvar,
            restoreDoms_eq_self E d hkE hnd⟩
      · rw [if_neg hok]
        exact ⟨aerase_aset_of_none a var val hvar,
          restoreDoms_eq_self E d hkE hnd⟩

theorem tryVals_frame (c : Ctx) (recur : Assign → Doms → St → BTRes)
    (hrecframe : ∀ a2 d2 st2, (d2.map Prod.fst).Nodup →
      Var.carry (c.maxLen - 1) ∈ d2.map Prod.fst →
      (recur a2 d2 st2).2.2.2 = none →
      (recur a2 d2 st2).2.1 = a2 ∧ (recur a2 d2 st2).2.2.1 = d2)
    (hrecsol : ∀ a2 d2 st2 sol, (recur a2 d2 st2).2.2.2 = some sol →
      sol.length = c.letters.length)
    (var : Var) :
    ∀ (vals : List Nat) (a : Assign) (d : Doms) (st : St),
      (d.map Prod.fst).Nodup →
      Var.carry (c.maxLen - 1) ∈ d.map Prod.fst →
      c.letters ≠ [] →
      alookup a var = none →
      (tryVals c recur var vals a d st).2.2.2 = none →
      (tryVals c recur var vals a d st).2.1 = a
        ∧ (tryVals c recur var vals a d st).2.2.1 = d := by
  intro vals
  induction vals with
  | nil => intro a d st hnd htop hlet hvar hfail; exact ⟨rfl, rfl⟩
  | cons val rest ih =>
    intro a d st hnd htop hlet hvar hfail
    simp only [tryVals] at hfail ⊢
    have htr : tryOne c recur var val a d st
        = ((tryOne c recur var val a d st).1, (tryOne c recur var val a d st).2.1,
           (tryOne c recur var val a d st).2.2.1,
           (tryOne c recur var val a d st).2.2.2) := rfl
    rw [htr] at hfail ⊢
    cases hos : (tryOne c recur var val a d st).2.2.2 with
    | some sol =>
      rw [hos] at hfail
      simp only [] at hfail
      exact absurd hfail (by simp)
    | none =>
      rw [hos] at hfail
      simp only [] at hfail ⊢
      have hfr := tryOne_frame c recur hrecframe hrecsol var val a d st hnd htop hlet hvar hos
      rw [hfr.1, hfr.2] at hfail ⊢
      exact ih a d _ hnd htop hlet hvar hfail

theorem backtrack_frame (c : Ctx) :
    ∀ (fuel : Nat) (a : Assign) (d : Doms) (st : St),
      (d.map Prod.fst).Nodup →
      Var.carry (c.maxLen - 1) ∈ d.map Prod.fst →
      c.letters ≠ [] →
      (backtrack c fuel a d st).2.2.2 = none →
      (backtrack c fuel a d st).2.1 = a ∧ (backtrack c fuel a d st).2.2.1 = d := by
  intro fuel
  induction fuel with
  | zero => intro a d st hnd htop hlet hfail; exact ⟨rfl, rfl⟩
  | succ fuel ih =>
    intro a d st hnd htop hlet hfail
    simp only [backtrack] at hfail ⊢
    by_cases hlen : a.length = c.variables.length
    · rw [if_pos hlen] at hfail ⊢
      split
      · split
        · split
          · exact ⟨rfl, rfl⟩
          · exact ⟨rfl, rfl⟩
        · exact ⟨rfl, rfl⟩
      · exact ⟨rfl, rfl⟩
    · rw [if_neg hlen] at hfail ⊢
      rcases hsel : selectUnassignedVar c a d with _ | var
      · exact ⟨rfl, rfl⟩
      · rw [hsel] at hfail
        simp only [] at hfail ⊢
        have hvar := (selectUnassignedVar_mem c a d var hsel).2
        exact tryVals_frame c (backtrack c fuel)
          (fun a2 d2 st2 hnd2 htop2 hnone => ih a2 d2 st2 hnd2 htop2 hlet hnone)
          (fun a2 d2 st2 sol h2 => backtrack_sol_length c fuel a2 d2 st2 sol h2)
          var ((alookup d var).getD []) a d _ hnd htop hlet hvar hfail

theorem tryOne_fail_trace (c : Ctx) (recur : Assign → Doms → St → BTRes)
    (hrect : ∀ a2 d2 st2, ∃ evs, (recur a2 d2 st2).1.trace = st2.trace ++ evs)
    (hrecsol : ∀ a2 d2 st2 sol, (recur a2 d2 st2).2.2.2 = some sol →
      sol.length = c.letters.length)
    (var : Var) (val : Nat) (a : Assign) (d : Doms) (st : St)
    (hlet : c.letters ≠ [])
    (hpre : (c.isLetterVar var && !allDifferentConsistent c var val a) = false)
    (hfail : (tryOne c recur var val a d st).2.2.2 = none) :
    ∃ evs, (tryOne c recur var val a d st).1.trace
      = st.trace ++ [Ev.assignEv var val] ++ evs ++ [Ev.unassignEv var] := by
  have hskip : ¬ ((c.isLetterVar var && !allDifferentConsistent c var val a) = true) := by
    rw [hpre]
    simp
  simp only [tryOne, snapshotDomains_eq] at hfail ⊢
  rw [if_neg hskip] at hfail ⊢
  set E := (if c.isLetterVar var = true
      then forwardCheck c var val (aset a var val) d else d) with hE
  by_cases hac : c.useAc3 = true
  · rw [if_pos hac] at hfail ⊢
    by_cases hok : (runAc3Propagation c E (aset a var val)).1 = true
    · rw [if_pos hok] at hfail ⊢
      have hrc : recur (aset a var val) (runAc3Propagation c E (aset a var val)).2.1
            ((st.push (Ev.assignEv var val)).pushAll
              (runAc3Propagation c E (aset a var val)).2.2)
          = ((recur (aset a var val) (runAc3Propagation c E (aset a var val)).2.1
              ((st.push (Ev.assignEv var val)).pushAll
                (runAc3Propagation c E (aset a var val)).2.2)).1,
             (recur (aset a var val) (runAc3Propagation c E (aset a var val)).2.1
              ((st.push (Ev.assignEv var val)).pushAll
                (runAc3Propagation c E (aset a var val)).2.2)).2.1,
             (recur (aset a var val) (runAc3Propagation c E (aset a var val)).2.1
              ((st.push (Ev.assignEv var val)).pushAll
                (runAc3Propagation c E (aset a var val)).2.2)).2.2.1,
             (recur (aset a var val) (runAc3Propagation c E (aset a var val)).2.1
              ((st.push (Ev.assignEv var val)).pushAll
                (runAc3Propagation c E (aset a var val)).2.2)).2.2.2) := rfl
      rw [hrc] at hfail ⊢
      cases hos : (recur (aset a var val) (runAc3Propagation c E (aset a var val)).2.1
          ((st.push (Ev.assignEv var val)).pushAll
            (runAc3Propagation c E (aset a var val)).2.2)).2.2.2 with
      | some sol =>
        rw [hos] at hfail
        simp only [] at hfail
        have hlen := hrecsol _ _ _ sol hos
        have hne : ¬ (sol.isEmpty = true) := by
          cases sol with
          | nil => intro hx; exact hlet (List.eq_nil_of_length_eq_zero hlen.symm)
          | cons x t => simp
        rw [if_neg hne] at hfail
        exact absurd hfail (by simp)
      | none =>
        simp only []
        obtain ⟨e2, he2⟩ := hrect (aset a var val)
          (runAc3Propagation c E (aset a var val)).2.1
          ((st.push (Ev.assignEv var val)).pushAll
            (runAc3Propagation c E (aset a var val)).2.2)
        refine ⟨(runAc3Propagation c E (aset a var val)).2.2 ++ e2, ?_⟩
        simp only [St.push, St.pushAll] at he2 ⊢
        rw [he2]
        simp
    · rw [if_neg hok]
      refine ⟨(runAc3Propagation c E (aset a var val)).2.2, ?_⟩
      simp [St.push, St.pushAll]
  · rw [if_neg hac] at hfail ⊢
    by_cases hok : carriesConsistentPartial c (aset a var val) E = true
    · rw [if_pos hok] at hfail ⊢
      have hrc : recur (aset a var val) E (st.push (Ev.assignEv var val))
          = ((recur (aset a var val) E (st.push (Ev.assignEv var val))).1,
             (recur (aset a var val) E (st.push (Ev.assignEv var val))).2.1,
             (recur (aset a var val) E (st.push (Ev.assignEv var val))).2.2.1,
             (recur (aset a var val) E (st.push (Ev.assignEv var val))).2.2.2) := rfl
      rw [hrc] at hfail ⊢
      cases hos : (recur (aset a var val) E (st.push (Ev.assignEv var val))).2.2.2 with
      | some sol =>
        rw [hos] at hfail
        simp only [] at hfail
        have hlen := hrecsol _ _ _ sol hos
        have hne : ¬ (sol.isEmpty = true) := by
          cases sol with
          | nil => intro hx; exact hlet (List.eq_nil_of_length_eq_zero hlen.symm)
          | cons x t => simp
        rw [if_neg hne] at hfail
        exact absurd hfail (by simp)
      | none =>
        simp only []
        obtain ⟨e2, he2⟩ := hrect (aset a var val) E (st.push (Ev.assignEv var val))
        refine ⟨e2, ?_⟩
        simp only [St.push] at he2 ⊢
        rw [he2]
    · rw [if_neg hok]
      refine ⟨[], ?_⟩
      simp [St.push]

/-- C9: a candidate value whose tentative assignment fails (the recursion
finds no solution, or the mode's consistency check rejects it) ends with an
UNASSIGN event for the chosen variable, the variable removed from the
assignment, and the domain map restored entry-for-entry to the snapshot
taken at assignment time; the next candidate value therefore starts from
exactly the node-entry assignment and domains. -/
theorem c9_fail_restores (c : Ctx) (fuel : Nat) (var : Var) (val : Nat) (rest : List Nat)
    (a : Assign) (d : Doms) (st : St)
    (hnd : (d.map Prod.fst).Nodup)
    (htop : Var.carry (c.maxLen - 1) ∈ d.map Prod.fst)
    (hlet : c.letters ≠ [])
    (hvar : alookup a var = none)
    (hpre : (c.isLetterVar var && !allDifferentConsistent c var val a) = false)
    (hfail : (tryOne c (backtrack c fuel) var val a d st).2.2.2 = none) :
    (tryOne c (backtrack c fuel) var val a d st).2.1 = a
      ∧ (tryOne c (backtrack c fuel) var val a d st).2.2.1 = d
      ∧ (∃ evs, (tryOne c (backtrack c fuel) var val a d st).1.trace
          = st.trace ++ [Ev.assignEv var val] ++ evs ++ [Ev.unassignEv var])
      ∧ tryVals c (backtrack c fuel) var (val :: rest) a d st
          = tryVals c (backtrack c fuel) var rest a d
              ((tryOne c (backtrack c fuel) var val a d st).1) := by
  have hframe := tryOne_frame c (backtrack c fuel)
    (fun a2 d2 st2 hnd2 htop2 hnone => backtrack_frame c fuel a2 d2 st2 hnd2 htop2 hlet hnone)
    (fun a2 d2 st2 sol h2 => backtrack_sol_length c fuel a2 d2 st2 sol h2)
    var val a d st hnd htop hlet hvar hfail
  have htrace := tryOne_fail_trace c (backtrack c fuel)
    (fun a2 d2 st2 => backtrack_trace c fuel a2 d2 st2)
    (fun a2 d2 st2 sol h2 => backtrack_sol_length c fuel a2 d2 st2 sol h2)
    var val a d st hlet hpre hfail
  refine ⟨hframe.1, hframe.2, htrace, ?_⟩
  simp only [tryVals]
  have htr : tryOne c (backtrack c fuel) var val a d st
      = ((tryOne c (backtrack c fuel) var val a d st).1,
         (tryOne c (backtrack c fuel) var val a d st).2.1,
         (tryOne c (backtrack c fuel) var val a d st).2.2.1,
         (tryOne c (backtrack c fuel) var val a d st).2.2.2) := rfl
  rw [htr, hfail]
  simp only []
  rw [hframe.1, hframe.2]

/-- C9, witness: at the root node of the puzzle A = A with propagation off,
the candidate C0 = 1 fails the consistency check; the driver emits ASSIGN
then UNASSIGN, puts the assignment back to empty, and the domain map equals
the entry domains again. -/
theorem c9_fail_restores_witness :
    (tryOne (mkCtx [['A']] ['A'] false) (backtrack (mkCtx [['A']] ['A'] false) 3)
        (Var.carry 0) 1 [] ((mkCtx [['A']] ['A'] false).initialDomains)
        { trace := [], steps := 0 }).2.2.2 = none
    ∧ ((tryOne (mkCtx [['A']] ['A'] false) (backtrack (mkCtx [['A']] ['A'] false) 3)
          (Var.carry 0) 1 [] ((mkCtx [['A']] ['A'] false).initialDomains)
          { trace := [], steps := 0 }).2.1 = []
      ∧ (tryOne (mkCtx [['A']] ['A'] false) (backtrack (mkCtx [['A']] ['A'] false) 3)
          (Var.carry 0) 1 [] ((mkCtx [['A']] ['A'] false).initialDomains)
          { trace := [], steps := 0 }).2.2.1 = (mkCtx [['A']] ['A'] false).initialDomains
      ∧ (∃ evs, (tryOne (mkCtx [['A']] ['A'] false) (backtrack (mkCtx [['A']] ['A'] false) 3)
          (Var.carry 0) 1 [] ((mkCtx [['A']] ['A'] false).initialDomains)
          { trace := [], steps := 0 }).1.trace
            = ({ trace := [], steps := 0 } : St).trace
              ++ [Ev.assignEv (Var.carry 0) 1] ++ evs ++ [Ev.unassignEv (Var.carry 0)])
      ∧ tryVals (mkCtx [['A']] ['A'] false) (backtrack (mkCtx [['A']] ['A'] false) 3)
          (Var.carry 0) (1 :: []) [] ((mkCtx [['A']] ['A'] false).initialDomains)
          { trace := [], steps := 0 }
          = tryVals (mkCtx [['A']] ['A'] false) (backtrack (mkCtx [['A']] ['A'] false) 3)
              (Var.carry 0) [] [] ((mkCtx [['A']] ['A'] false).initialDomains)
              ((tryOne (mkCtx [['A']] ['A'] false) (backtrack (mkCtx [['A']] ['A'] false) 3)
                (Var.carry 0) 1 [] ((mkCtx [['A']] ['A'] false).initialDomains)
                { trace := [], steps := 0 }).1)) :=
  ⟨by decide,
    c9_fail_restores (mkCtx [['A']] ['A'] false) 3 (Var.carry 0) 1 [] []
      ((mkCtx [['A']] ['A'] false).initialDomains) { trace := [], steps := 0 }
      (by decide) (by decide) (by decide) (by decide) (by decide) (by decide)⟩

end Cryptarithm
